import Mathlib

/-!
Verification development for the JsonCPP repository: a shallow embedding of
the JSON lexer (Lexer.hpp, class JsonLexer), the recursive-descent parser and
the compact serializer (JsonParser.hpp, class JSONParser and the
GetValueAsString specializations), and the tagged value model with its typed
accessors and mutation API (JsonParser.hpp, struct Element).

Source text is modelled as a list of characters, machine doubles as exact
rationals, and C++ exceptions as error results of an Except type.  Undefined
behaviour of the underlying containers (reading a std::vector past its end)
is modelled as a dedicated error outcome distinct from a thrown exception.
All definitions are computable so that concrete runs evaluate inside the
kernel; rational values are built exclusively with mkRat and integer
arithmetic for that reason.
-/

namespace JsonCPP

/-! ## Tokens (TokenType.hpp and Token.hpp)

TokenType mirrors the enum in TokenType.hpp.  The Token class itself
(Token.hpp) is not among the provided sources; the structure below is
modelled from the spec: a token is a kind, its lexeme text, and an optional
literal payload (decoded string, number value, or boolean), immutable once
created, with GetLiteralValueAs returning the stored payload.
-/

inductive TokenType where
  | LBRACE | RBRACE | LBRACKET | RBRACKET | COMMA | COLON
  | STRING | NUMBER | TRUE_LITERAL | FALSE_LITERAL | NULL_LITERAL
  | END_OF_FILE | INVALID
  deriving DecidableEq, Repr

inductive Literal where
  | none
  | str (s : List Char)
  | num (v : Rat)
  | bool (b : Bool)
  deriving DecidableEq, Repr

structure Token where
  tokenType : TokenType
  lexeme : List Char
  literal : Literal
  deriving DecidableEq, Repr

/-- Token.GetLiteralValueAs with T = std::string; the parser only calls it
after checking the token type, so the non-string branches are unreachable
there. -/
def litAsString : Literal → List Char
  | .str s => s
  | _ => []

/-- Token.GetLiteralValueAs with T = double. -/
def litAsNum : Literal → Rat
  | .num v => v
  | _ => 0

/-! ## The lexer (Lexer.hpp, class JsonLexer) -/

namespace JsonLexer

/-- JsonLexer::isDigit: NOTE the source counts the minus sign as a digit
character everywhere (isdigit(c) || c == a minus). -/
def isDigit (c : Char) : Bool := c.isDigit || c = '-'

inductive LexError where
  | unexpectedCharacter
  | unterminatedString
  | malformedKeyword
  | outOfFuel
  deriving DecidableEq, Repr

/-- Model of the C library atof as applied by JsonLexer::ReadNumber to the
captured lexeme: optional sign, integer digits, optional fraction digits
after a dot, optional exponent introduced by e or E with an optional sign,
everything after the longest such prefix ignored.  The value is exact
rational arithmetic (the embedding of the machine double). -/
def atof (s : List Char) : Rat :=
  let signAndRest : Int × List Char :=
    if s.head? = some '-' then (-1, s.tail)
    else if s.head? = some '+' then (1, s.tail)
    else (1, s)
  let sign := signAndRest.1
  let s1 := signAndRest.2
  let ip := s1.takeWhile Char.isDigit
  let s2 := s1.drop ip.length
  let fpAndRest : List Char × List Char :=
    if s2.head? = some '.' then
      (s2.tail.takeWhile Char.isDigit,
        s2.tail.drop (s2.tail.takeWhile Char.isDigit).length)
    else ([], s2)
  let fp := fpAndRest.1
  let s3 := fpAndRest.2
  let expPart : Bool × List Char :=
    if s3.head? = some 'e' ∨ s3.head? = some 'E' then
      if s3.tail.head? = some '-' then (true, s3.tail.tail.takeWhile Char.isDigit)
      else if s3.tail.head? = some '+' then (false, s3.tail.tail.takeWhile Char.isDigit)
      else (false, s3.tail.takeWhile Char.isDigit)
    else (false, [])
  let digitsToNat : List Char → Nat := fun l => l.foldl (fun a c => a * 10 + (c.toNat - 48)) 0
  let m : Nat := digitsToNat ip * 10 ^ fp.length + digitsToNat fp
  let e : Nat := digitsToNat expPart.2
  if expPart.1 then mkRat (sign * m) (10 ^ fp.length * 10 ^ e)
  else mkRat (sign * m * (10 : Int) ^ e) (10 ^ fp.length)

/-- Value of a digit string, most significant first. -/
def digitsToNat (l : List Char) : Nat := l.foldl (fun a c => a * 10 + (c.toNat - 48)) 0

/-- JsonLexer::ReadString's scan loop.  The loop consumes characters until it
sees a double quote whose immediately preceding character is not a
backslash; reaching the end of input is the unterminated-string error.  The
flag carries whether the previously consumed character was a backslash; at
the call site the character before the first scanned one is the opening
quote (or, for a string at position zero, the null character PeekPrev
substitutes), neither of which is a backslash, so the flag starts false. -/
def readStringLoop : List Char → Bool → List Char → Except LexError (List Char × List Char)
  | [], _, _ => .error .unterminatedString
  | c :: r, prevBS, acc =>
    if c = '"' && !prevBS then .ok (acc.reverse, r)
    else readStringLoop r (c = '\\') (c :: acc)

/-- The second phase of ReadNumber: an optional dot followed by a digit
run, taken only when the character after the dot is a digit.  Returns the
consumed characters and the remaining input. -/
def numFracPart (r1 : List Char) : List Char × List Char :=
  if r1.headD '\x00' = '.' && isDigit ((r1.drop 1).headD '\x00') then
    ('.' :: (r1.drop 1).takeWhile isDigit,
     (r1.drop 1).drop ((r1.drop 1).takeWhile isDigit).length)
  else ([], r1)

/-- The third phase of ReadNumber: a single e or E, consumed only when the
following character is a digit. -/
def numExpoPart (r2 : List Char) : List Char × List Char :=
  if (r2.headD '\x00' = 'e' || r2.headD '\x00' = 'E') && isDigit ((r2.drop 1).headD '\x00') then
    ([r2.headD '\x00'], r2.drop 1)
  else ([], r2)

/-- JsonLexer::ReadNumber, entered after scanToken consumed the first
character c0 (a digit or minus).  Four phases exactly as in the source: a
run of digit characters, the optional fraction part, the optional exponent
marker, and a final digit run.  Remember isDigit also accepts the minus
sign. -/
def readNumber (c0 : Char) (r : List Char) : Token × List Char :=
  let d1 := r.takeWhile isDigit
  let fr := numFracPart (r.drop d1.length)
  let ex := numExpoPart fr.2
  let d4 := ex.2.takeWhile isDigit
  let lex := c0 :: (d1 ++ fr.1 ++ ex.1 ++ d4)
  ({ tokenType := .NUMBER, lexeme := lex, literal := .num (atof lex) },
   ex.2.drop d4.length)

/-- JsonLexer::ReadTrueLiteral: three further characters matched
case-insensitively against r, u, e; the c0 argument is the already consumed
t or T.  A missing character reads as the null character and fails the
comparison, exactly as indexing one past the end of a std::string does. -/
def readTrueLiteral (c0 : Char) (r : List Char) : Except LexError (Token × List Char) :=
  let c1 := r.headD '\x00'
  let c2 := (r.drop 1).headD '\x00'
  let c3 := (r.drop 2).headD '\x00'
  if ¬(c1 = 'r' ∨ c1 = 'R') then .error .malformedKeyword
  else if ¬(c2 = 'u' ∨ c2 = 'U') then .error .malformedKeyword
  else if ¬(c3 = 'e' ∨ c3 = 'E') then .error .malformedKeyword
  else .ok ({ tokenType := .TRUE_LITERAL, lexeme := [c0, c1, c2, c3], literal := .bool true },
            r.drop 3)

/-- JsonLexer::ReadFalseLiteral: four further characters matched
case-insensitively against a, l, s, e. -/
def readFalseLiteral (c0 : Char) (r : List Char) : Except LexError (Token × List Char) :=
  let c1 := r.headD '\x00'
  let c2 := (r.drop 1).headD '\x00'
  let c3 := (r.drop 2).headD '\x00'
  let c4 := (r.drop 3).headD '\x00'
  if ¬(c1 = 'a' ∨ c1 = 'A') then .error .malformedKeyword
  else if ¬(c2 = 'l' ∨ c2 = 'L') then .error .malformedKeyword
  else if ¬(c3 = 's' ∨ c3 = 'S') then .error .malformedKeyword
  else if ¬(c4 = 'e' ∨ c4 = 'E') then .error .malformedKeyword
  else .ok ({ tokenType := .FALSE_LITERAL, lexeme := [c0, c1, c2, c3, c4], literal := .bool false },
            r.drop 4)

/-- JsonLexer::ReadNullLiteral: three further characters matched
case-insensitively against u, l, l. -/
def readNullLiteral (c0 : Char) (r : List Char) : Except LexError (Token × List Char) :=
  let c1 := r.headD '\x00'
  let c2 := (r.drop 1).headD '\x00'
  let c3 := (r.drop 2).headD '\x00'
  if ¬(c1 = 'u' ∨ c1 = 'U') then .error .malformedKeyword
  else if ¬(c2 = 'l' ∨ c2 = 'L') then .error .malformedKeyword
  else if ¬(c3 = 'l' ∨ c3 = 'L') then .error .malformedKeyword
  else .ok ({ tokenType := .NULL_LITERAL, lexeme := [c0, c1, c2, c3], literal := .none },
            r.drop 3)

def punct (c : Char) (tt : TokenType) : Token := { tokenType := tt, lexeme := [c], literal := .none }

def stringToken (s : List Char) : Token :=
  { tokenType := .STRING, lexeme := '"' :: s ++ ['"'], literal := .str s }

def eofToken : Token := { tokenType := .END_OF_FILE, lexeme := [], literal := .none }

/-- JsonLexer::scanTokens: the scanToken dispatch on the first character of
the remaining input, run to the end of the source and terminated by the
end-of-file token.  The fuel argument only bounds the recursion; every step
consumes at least one character, so the wrapper's fuel of length plus one
is never exhausted. -/
def scanTokensF : Nat → List Char → Except LexError (List Token)
  | 0, _ => .error .outOfFuel
  | _ + 1, [] => .ok [eofToken]
  | n + 1, c :: r =>
    match c with
    | '[' => (punct c .LBRACKET :: ·) <$> scanTokensF n r
    | ']' => (punct c .RBRACKET :: ·) <$> scanTokensF n r
    | '{' => (punct c .LBRACE :: ·) <$> scanTokensF n r
    | '}' => (punct c .RBRACE :: ·) <$> scanTokensF n r
    | ',' => (punct c .COMMA :: ·) <$> scanTokensF n r
    | ':' => (punct c .COLON :: ·) <$> scanTokensF n r
    | '"' =>
      match readStringLoop r false [] with
      | .error e => .error e
      | .ok (s, rest) => (stringToken s :: ·) <$> scanTokensF n rest
    | 't' | 'T' =>
      match readTrueLiteral c r with
      | .error e => .error e
      | .ok (tk, rest) => (tk :: ·) <$> scanTokensF n rest
    | 'f' | 'F' =>
      match readFalseLiteral c r with
      | .error e => .error e
      | .ok (tk, rest) => (tk :: ·) <$> scanTokensF n rest
    | 'n' | 'N' =>
      match readNullLiteral c r with
      | .error e => .error e
      | .ok (tk, rest) => (tk :: ·) <$> scanTokensF n rest
    | ' ' | '\r' | '\t' | '\n' => scanTokensF n r
    | _ =>
      if isDigit c then
        let nr := readNumber c r
        (nr.1 :: ·) <$> scanTokensF n nr.2
      else .error .unexpectedCharacter

def scanTokens (src : List Char) : Except LexError (List Token) :=
  scanTokensF (src.length + 1) src

end JsonLexer

/-! ## The parser (JsonParser.hpp, class JSONParser)

A parsed tree: the parser only ever pairs the OBJECT tag with a JObject
payload, ARRAY with JArray, and so on, so its output is this ordinary tree
type.  JObject is std::unordered_map; it is modelled as an association list
in insertion order, with unordered_map::emplace keeping the existing entry
when the key is already present.  std::vector is a list. -/

inductive JElem : Type where
  | jStr (s : List Char)
  | jNum (q : Rat)
  | jBool (b : Bool)
  | jNull
  | jObj (entries : List (List Char × JElem))
  | jArr (elems : List JElem)

/-- unordered_map::emplace: inserts only when the key is not yet present;
an existing entry for the key is kept unchanged. -/
def emplace (m : List (List Char × JElem)) (k : List Char) (v : JElem) :
    List (List Char × JElem) :=
  if m.any (fun kv => kv.1 = k) then m else m ++ [(k, v)]

inductive ParseError where
  | invalidStart        -- "Invalid token at start of file"
  | unexpectedToken     -- JSON_UNEXPECTED_TOKEN_TEXT
  | earlyCloseObject    -- "Unexpected token! To early close of object!"
  | tokenOutOfBounds    -- GetNext read past the end of the token vector (C++ UB)
  | lex (e : JsonLexer.LexError)
  | outOfFuel
  deriving DecidableEq, Repr

mutual

/-- JSONParser::BeginParseObject, entered after the opening brace was
consumed; the accumulator is the local JObject container.  Each fuel step is
one loop iteration (or one mutual hand-off), and the remaining token list
stands for the cursor.  An empty remaining list at the loop head is the
while-guard isEnd firing, which returns the container built so far.  In the
separator switch the source constructs a runtime_error for an unexpected
token but does not throw it, so that case falls through to the next loop
iteration without consuming the token; the same applies to the Peek of
EMPTY_TOKEN past the end of the tokens. -/
def BeginParseObjectF : Nat → List Token → List (List Char × JElem) →
    Except ParseError (List (List Char × JElem) × List Token)
  | 0, _, _ => .error .outOfFuel
  | _ + 1, [], container => .ok (container, [])
  | n + 1, key :: ts1, container =>
    if key.tokenType = .RBRACE then
      if container.length ≠ 0 then .error .earlyCloseObject
      else .ok (container, ts1)
    else
      match ts1 with
      | [] => .error .tokenOutOfBounds
      | delimiter :: ts2 =>
        match ts2 with
        | [] => .error .tokenOutOfBounds
        | value :: ts3 =>
          if key.tokenType ≠ .STRING then .error .unexpectedToken
          else if delimiter.tokenType ≠ .COLON then .error .unexpectedToken
          else
            let keyStr := litAsString key.literal
            let sub : Except ParseError (JElem × List Token) :=
              match value.tokenType with
              | .STRING => .ok (.jStr (litAsString value.literal), ts3)
              | .NUMBER => .ok (.jNum (litAsNum value.literal), ts3)
              | .TRUE_LITERAL => .ok (.jBool true, ts3)
              | .FALSE_LITERAL => .ok (.jBool false, ts3)
              | .NULL_LITERAL => .ok (.jNull, ts3)
              | .LBRACE => (BeginParseObjectF n ts3 []).map (fun p => (.jObj p.1, p.2))
              | .LBRACKET => (BeginParseArrayF n ts3 []).map (fun p => (.jArr p.1, p.2))
              | _ => .error .unexpectedToken
            match sub with
            | .error e => .error e
            | .ok (elem, ts4) =>
              let container' := emplace container keyStr elem
              match ts4 with
              | [] => .ok (container', [])
              | sep :: rest =>
                if sep.tokenType = .COMMA then BeginParseObjectF n rest container'
                else if sep.tokenType = .RBRACE then .ok (container', rest)
                else BeginParseObjectF n (sep :: rest) container'

/-- JSONParser::BeginParseArray, entered after the opening bracket was
consumed.  A close bracket in value position returns at once: this is the
commented early exit for the empty array and also directly after a value,
so a comma followed by the close bracket terminates the array.  The
separator switch has the same unthrown runtime_error as the object loop. -/
def BeginParseArrayF : Nat → List Token → List JElem →
    Except ParseError (List JElem × List Token)
  | 0, _, _ => .error .outOfFuel
  | _ + 1, [], container => .ok (container, [])
  | n + 1, value :: ts1, container =>
    match value.tokenType with
    | .RBRACKET => .ok (container, ts1)
    | _ =>
      let sub : Except ParseError (JElem × List Token) :=
        match value.tokenType with
        | .STRING => .ok (.jStr (litAsString value.literal), ts1)
        | .NUMBER => .ok (.jNum (litAsNum value.literal), ts1)
        | .TRUE_LITERAL => .ok (.jBool true, ts1)
        | .FALSE_LITERAL => .ok (.jBool false, ts1)
        | .NULL_LITERAL => .ok (.jNull, ts1)
        | .LBRACE => (BeginParseObjectF n ts1 []).map (fun p => (.jObj p.1, p.2))
        | .LBRACKET => (BeginParseArrayF n ts1 []).map (fun p => (.jArr p.1, p.2))
        | _ => .error .unexpectedToken
      match sub with
      | .error e => .error e
      | .ok (elem, ts2) =>
        let container' := container ++ [elem]
        match ts2 with
        | [] => .ok (container', [])
        | sep :: rest =>
          if sep.tokenType = .COMMA then BeginParseArrayF n rest container'
          else if sep.tokenType = .RBRACKET then .ok (container', rest)
          else BeginParseArrayF n (sep :: rest) container'

end

/-- JSONParser::_parse on an already scanned token list: the first token
must be an opening brace or bracket, which is consumed before entering the
matching sub-parser.  The fuel bound of twice the token count plus two
covers one step per loop iteration and mutual hand-off. -/
def ParseTokens (tokens : List Token) : Except ParseError JElem :=
  match tokens with
  | [] => .error .invalidStart
  | t :: ts =>
    if t.tokenType = .LBRACE then
      (BeginParseObjectF (2 * tokens.length + 2) ts []).map (fun p => .jObj p.1)
    else if t.tokenType = .LBRACKET then
      (BeginParseArrayF (2 * tokens.length + 2) ts []).map (fun p => .jArr p.1)
    else .error .invalidStart

/-- JSONParser::Parse / _parse: scan the source into tokens, then parse. -/
def Parse (src : List Char) : Except ParseError JElem :=
  match JsonLexer.scanTokens src with
  | .error e => .error (.lex e)
  | .ok tokens => ParseTokens tokens

/-! ## The compact serializer

Element::ToString() and the GetValueAsString template specializations of
the value-model header: strings are wrapped in double quotes with the raw
payload passed through verbatim, numbers go through std::to_string (fixed
six-decimal formatting), booleans are lowercase words, null Elements print
the word null.  Containers print an opening bracket and a space, then each
member followed by comma-space, except the last member which is followed by
space and the closing bracket; for an empty container the loop body never
runs, so the closing bracket is never emitted. -/

/-- Decimal digits of n, most significant first, by repeated division; the
fuel (any bound at least the digit count, n itself suffices) only bounds
the recursion. -/
def natDigitsF : Nat → Nat → List Char
  | 0, _ => []
  | _ + 1, 0 => []
  | f + 1, n => natDigitsF f (n / 10) ++ [Char.ofNat (48 + n % 10)]

def natToChars (n : Nat) : List Char :=
  if n = 0 then ['0'] else natDigitsF n n

/-- The fractional part printed to exactly six places, zero padded. -/
def padSix (k : Nat) : List Char :=
  let d := natToChars k
  List.replicate (6 - d.length) '0' ++ d

/-- std::to_string applied to the stored double: fixed formatting with six
decimal places.  Modelled over the exact rational as sign, then the decimal
expansion of the magnitude rounded to six places (half rounded up). -/
def fmt6 (q : Rat) : List Char :=
  let m : Nat := (q.num.natAbs * 2000000 + q.den) / (2 * q.den)
  (if q.num < 0 then ['-'] else []) ++
    natToChars (m / 1000000) ++ '.' :: padSix (m % 1000000)

/-- The rational actually denoted by the six-decimal rendering of q: the
magnitude rounded to six decimal places, with the sign of q. -/
def round6 (q : Rat) : Rat :=
  let m : Nat := (q.num.natAbs * 2000000 + q.den) / (2 * q.den)
  mkRat (if q.num < 0 then -(m : Int) else (m : Int)) 1000000

mutual

/-- Element::ToString(), compact form, via the GetValueAsString
specializations.  On the parser's trees the NULL_LITERAL branch of
ToString applies to jNull, and every other tag dispatches to its payload's
GetValueAsString. -/
def ToStringC : JElem → List Char
  | .jNull => ['n', 'u', 'l', 'l']
  | .jStr s => '"' :: s ++ ['"']
  | .jNum q => fmt6 q
  | .jBool true => ['t', 'r', 'u', 'e']
  | .jBool false => ['f', 'a', 'l', 's', 'e']
  | .jObj entries => '{' :: ' ' :: serObjEntries entries
  | .jArr elems => '[' :: ' ' :: serArrElems elems

/-- The member loop of Value of JObject GetValueAsString: quoted key, colon
space, member text, then comma-space, or space and closing brace after the
last member.  An empty map yields nothing (no closing brace). -/
def serObjEntries : List (List Char × JElem) → List Char
  | [] => []
  | [kv] => '"' :: kv.1 ++ ['"', ':', ' '] ++ ToStringC kv.2 ++ [' ', '}']
  | kv :: rest => '"' :: kv.1 ++ ['"', ':', ' '] ++ ToStringC kv.2 ++ [',', ' '] ++ serObjEntries rest

/-- The member loop of Value of JArray GetValueAsString. -/
def serArrElems : List JElem → List Char
  | [] => []
  | [v] => ToStringC v ++ [' ', ']']
  | v :: rest => ToStringC v ++ [',', ' '] ++ serArrElems rest

end

/-! ## The value model (JsonParser.hpp, struct Element)

An Element is a ValueType tag together with a unique_ptr to a BaseValue,
which is either null or a Value of one of the instantiated payload types.
The payload records which host type the Value template was instantiated
at, because dynamic_cast to a Value of a different host type fails even
when the tag agrees (a number parsed into Value of double does not cast to
Value of int).  JObject is again an insertion-ordered association list and
JArray a list. -/

inductive ValueType where
  | STRING_LITERAL | NUMBER_LITERAL | OBJECT | ARRAY | BOOL_LITERAL | NULL_LITERAL | INVALID
  deriving DecidableEq, Repr

/-- Which numeric host type a Value template was instantiated at. -/
inductive NumHost where
  | hdouble | hint | hlong | hfloat
  deriving DecidableEq, Repr

inductive Payload : Type where
  | pStr (s : List Char)
  | pNum (host : NumHost) (v : Rat)
  | pBool (b : Bool)
  | pNullptr
  | pObj (entries : List (List Char × (ValueType × Option Payload)))
  | pArr (elems : List (ValueType × Option Payload))

/-- struct Element: the valueType field and the (possibly null) owned
payload. -/
abbrev Element := ValueType × Option Payload

/-- Element(): the default constructor makes a NULL_LITERAL Element with a
null payload. -/
def defaultElement : Element := (.NULL_LITERAL, none)

/-- The supported template arguments: the types for which allowed_types is
specialized to true (double, int, long, float, std::string, bool,
nullptr_t, JObject, JArray). -/
inductive PType where
  | tdouble | tint | tlong | tfloat | tstring | tbool | tnullptr | tJObject | tJArray
  deriving DecidableEq, Repr

/-- allowed_types for the supported template arguments (every other C++
type instantiates the false base template; where such an argument can
occur it is modelled separately). -/
def allowed_types : PType → Bool := fun _ => true

/-- The ValueType_of trait: every numeric host type maps to
NUMBER_LITERAL. -/
def ValueType_of : PType → ValueType
  | .tdouble => .NUMBER_LITERAL
  | .tint => .NUMBER_LITERAL
  | .tlong => .NUMBER_LITERAL
  | .tfloat => .NUMBER_LITERAL
  | .tstring => .STRING_LITERAL
  | .tbool => .BOOL_LITERAL
  | .tnullptr => .NULL_LITERAL
  | .tJObject => .OBJECT
  | .tJArray => .ARRAY

/-- Whether dynamic_cast from the stored BaseValue to Value of the
requested type succeeds: the payload must be the Value instantiation of
exactly that type. -/
def dynamicCast : PType → Payload → Bool
  | .tdouble, .pNum .hdouble _ => true
  | .tint, .pNum .hint _ => true
  | .tlong, .pNum .hlong _ => true
  | .tfloat, .pNum .hfloat _ => true
  | .tstring, .pStr _ => true
  | .tbool, .pBool _ => true
  | .tnullptr, .pNullptr => true
  | .tJObject, .pObj _ => true
  | .tJArray, .pArr _ => true
  | _, _ => false

inductive ApiErr where
  | typeNotSupported    -- "Type not supported"
  | valueTypeMismatch   -- "Value is not of type number" (tag does not match the requested type)
  | wrongType           -- "Wrong type" (dynamic_cast came back null)
  | accessWrongType     -- operator[] on an Element of the wrong tag
  | notAllowedAssign    -- "Type not allowed to assign" in the stream insert
  | indexOutOfBounds    -- vector operator[] past the end: undefined behaviour, not a throw
  | eraseOutOfBounds    -- vector erase past the end: undefined behaviour, not a throw
  deriving DecidableEq, Repr

/-- Which error outcomes are C++ exceptions actually thrown by the source;
the two out-of-bounds outcomes stand for undefined behaviour of the
underlying vector and signal nothing. -/
def isThrown : ApiErr → Bool
  | .indexOutOfBounds => false
  | .eraseOutOfBounds => false
  | _ => true

/-- Element::GetValueAs of a supported type T: the allowed_types guard, the
tag comparison against ValueType_of T, then the dynamic_cast of the stored
payload. -/
def GetValueAs (t : PType) (e : Element) : Except ApiErr Payload :=
  if allowed_types t = false then .error .typeNotSupported
  else if e.1 ≠ ValueType_of t then .error .valueTypeMismatch
  else
    match e.2 with
    | none => .error .wrongType
    | some p => if dynamicCast t p then .ok p else .error .wrongType

/-- Element::TryGetValueAs: the same three checks, each converted into the
result false with the out pointer left null; on success the result is true
with a pointer to the payload. -/
def TryGetValueAs (t : PType) (e : Element) : Bool × Option Payload :=
  if allowed_types t = false then (false, none)
  else if e.1 ≠ ValueType_of t then (false, none)
  else
    match e.2 with
    | none => (false, none)
    | some p => if dynamicCast t p then (true, some p) else (false, none)

/-- The tag From gives a value of the given payload: ValueType_of at the
value's own type. -/
def tagOfPayload : Payload → ValueType
  | .pStr _ => .STRING_LITERAL
  | .pNum _ _ => .NUMBER_LITERAL
  | .pBool _ => .BOOL_LITERAL
  | .pNullptr => .NULL_LITERAL
  | .pObj _ => .OBJECT
  | .pArr _ => .ARRAY

/-- Element::From(value) for a supported value: the Element wrapping the
value with its mapped tag. -/
def From_val (p : Payload) : Element := (tagOfPayload p, some p)

/-- An argument to a template taking any type: either a value of one of
the supported types (as the payload From would store) or a value of any
other type, for which allowed_types instantiates to false. -/
inductive ShlArg where
  | sup (p : Payload)
  | unsup

def containsKey (m : List (List Char × Element)) (k : List Char) : Bool :=
  m.any (fun kv => kv.1 = k)

def lookupKey (m : List (List Char × Element)) (k : List Char) : Option Element :=
  (m.find? (fun kv => kv.1 = k)).map (fun kv => kv.2)

/-- unordered_map operator[] followed by assignment: overwrite in place or
append a fresh entry. -/
def mapInsert (m : List (List Char × Element)) (k : List Char) (v : Element) :
    List (List Char × Element) :=
  if containsKey m k then m.map (fun kv => if kv.1 = k then (kv.1, v) else kv)
  else m ++ [(k, v)]

/-- Element::Add(key, value) on the template path: wrong tag or an
unsupported value type report false; otherwise the map entry is inserted
or overwritten with From of the value. -/
def Add_key (e : Element) (key : List Char) (a : ShlArg) : Except ApiErr (Bool × Element) :=
  if e.1 ≠ .OBJECT then .ok (false, e)
  else
    match a with
    | .unsup => .ok (false, e)
    | .sup p =>
      match GetValueAs .tJObject e with
      | .ok (.pObj m) => .ok (true, (e.1, some (.pObj (mapInsert m key (From_val p)))))
      | .ok _ => .error .wrongType
      | .error err => .error err

/-- Element::Add(value) on the template path: wrong tag or an unsupported
value type report false; otherwise From of the value is appended. -/
def Add_val (e : Element) (a : ShlArg) : Except ApiErr (Bool × Element) :=
  if e.1 ≠ .ARRAY then .ok (false, e)
  else
    match a with
    | .unsup => .ok (false, e)
    | .sup p =>
      match GetValueAs .tJArray e with
      | .ok (.pArr l) => .ok (true, (e.1, some (.pArr (l ++ [From_val p]))))
      | .ok _ => .error .wrongType
      | .error err => .error err

/-- Element::Remove(key).  NOTE: the source line guarding the tag reads
if valueType is not OBJECT then the bare expression false, a statement with
no effect; control always reaches GetValueAs of JObject, which throws on a
non-Object Element.  unordered_map::erase(key) removes the entry for the
key and returns how many entries were removed. -/
def Remove_key (e : Element) (key : List Char) : Except ApiErr (Bool × Element) :=
  match GetValueAs .tJObject e with
  | .ok (.pObj m) =>
      .ok (containsKey m key, (e.1, some (.pObj (m.filter (fun kv => ¬(kv.1 = key))))))
  | .ok _ => .error .wrongType
  | .error err => .error err

/-- Element::Remove(at).  The same ineffective tag guard as Remove(key),
then vector::erase at begin() + at, which is undefined behaviour past the
end; the function returns true unconditionally. -/
def Remove_at (e : Element) (at_ : Nat) : Except ApiErr (Bool × Element) :=
  match GetValueAs .tJArray e with
  | .ok (.pArr l) =>
      if at_ < l.length then .ok (true, (e.1, some (.pArr (l.eraseIdx at_))))
      else .error .eraseOutOfBounds
  | .ok _ => .error .wrongType
  | .error err => .error err

/-- Element::Remove(): reset in place to a NULL_LITERAL Element holding a
Value of nullptr_t. -/
def Remove_self (_e : Element) : Bool × Element :=
  (true, (.NULL_LITERAL, some .pNullptr))

/-- Element::operator[](const std::string&): throws on a non-Object tag;
otherwise unordered_map::operator[] returns the existing entry or
default-constructs (and stores) a fresh Element() at the key.  The result
pairs the outcome (the returned reference's value, or the exception) with
the Element as it stands afterwards, so that what the access did to the
Element is visible on every path. -/
def index_key (e : Element) (key : List Char) : (Except ApiErr Element) × Element :=
  if e.1 ≠ .OBJECT then (.error .accessWrongType, e)
  else
    match GetValueAs .tJObject e with
    | .ok (.pObj m) =>
        match lookupKey m key with
        | some v => (.ok v, e)
        | none => (.ok defaultElement, (e.1, some (.pObj (m ++ [(key, defaultElement)]))))
    | .ok _ => (.error .wrongType, e)
    | .error err => (.error err, e)

/-- Element::operator[](size_t): throws on a non-Array tag; otherwise
vector::operator[] with no bounds check, so an index past the end is
undefined behaviour (no exception, no resize).  The pair again carries the
Element afterwards, which this operator never changes. -/
def index_at (e : Element) (i : Nat) : (Except ApiErr Element) × Element :=
  if e.1 ≠ .ARRAY then (.error .accessWrongType, e)
  else
    match GetValueAs .tJArray e with
    | .ok (.pArr l) =>
        match l.get? i with
        | some v => (.ok v, e)
        | none => (.error .indexOutOfBounds, e)
    | .ok _ => (.error .wrongType, e)
    | .error err => (.error err, e)

/-- Element::operator shift-left: throws when the argument's type is not
allowed; appends From of the value when the tag is ARRAY; replaces the
Element by From of the value when the tag is NULL_LITERAL; otherwise
returns the Element unchanged.  The result is the Element the reference
returned by the operator denotes afterwards. -/
def shiftInsert (e : Element) (a : ShlArg) : Except ApiErr Element :=
  match a with
  | .unsup => .error .notAllowedAssign
  | .sup p =>
    if e.1 = .ARRAY then
      match GetValueAs .tJArray e with
      | .ok (.pArr l) => .ok (e.1, some (.pArr (l ++ [From_val p])))
      | .ok _ => .error .wrongType
      | .error err => .error err
    else if e.1 = .NULL_LITERAL then .ok (From_val p)
    else .ok e

/-! ## Statement-side predicates

Decidable predicates used to state the claims: the number-lexeme grammars,
the shape of string payloads the lexer can emit, well-formedness of parsed
trees, the rounding map the six-decimal serialization applies to number
leaves, and the tree comparison of the round-trip claim. -/

/-- One nonempty run of characters satisfying p; none when the run is
empty, otherwise the rest of the list. -/
def digitRun (p : Char → Bool) (l : List Char) : Option (List Char) :=
  if (l.takeWhile p).length = 0 then none else some (l.drop (l.takeWhile p).length)

/-- The first character, if any, does not satisfy p. -/
def headNot (p : Char → Bool) : List Char → Prop
  | [] => True
  | c :: _ => p c = false


/-- After the mandatory first run and the optional fraction: an optional
exponent marker followed by a run, then nothing. -/
def numShapeTail2 (p : Char → Bool) (r2 : List Char) : Bool :=
  match r2 with
  | 'e' :: t =>
    match digitRun p t with
    | none => false
    | some r3 => r3.length == 0
  | 'E' :: t =>
    match digitRun p t with
    | none => false
    | some r3 => r3.length == 0
  | r2 => r2.length == 0

/-- After the mandatory first run: an optional dot followed by a run,
then the exponent tail. -/
def numShapeTail1 (p : Char → Bool) (r1 : List Char) : Bool :=
  match r1 with
  | '.' :: t =>
    match digitRun p t with
    | none => false
    | some r2 => numShapeTail2 p r2
  | r1 => numShapeTail2 p r1

/-- Lexemes of the form run, optional dot and run, optional exponent
marker and run, with runs of characters satisfying p. -/
def numShapeWith (p : Char → Bool) (l : List Char) : Bool :=
  match digitRun p l with
  | none => false
  | some r1 => numShapeTail1 p r1

/-- Modelled from the spec, claim C9: the number grammar the claim asserts
for NUMBER lexemes: an optional leading minus, one or more digits, an
optional dot followed by digits, an optional exponent marker immediately
followed by a digit (no exponent sign). -/
def specNumberLexeme (l : List Char) : Bool :=
  numShapeWith Char.isDigit (match l with | '-' :: r => r | _ => l)

/-- The shape NUMBER lexemes actually have: the same grammar over the
lexer's digit class, which also contains the minus sign. -/
def actualNumberLexeme (l : List Char) : Bool :=
  numShapeWith JsonLexer.isDigit l

/-- String payloads the lexer can hand to the parser: no unescaped double
quote inside (each one is immediately preceded by a backslash, and the
first character is not a quote), and the last character is not a
backslash.  Exactly the payloads whose requoting scans back to the same
payload. -/
def rawOKAux : Bool → List Char → Bool
  | _, [] => true
  | prevBS, c :: r => if c = '"' && !prevBS then false else rawOKAux (c = '\\') r

def rawStringOK (s : List Char) : Bool :=
  match s.getLast? with
  | some '\\' => false
  | _ => rawOKAux false s

/-- Keys of an association list are pairwise distinct. -/
def keysNodup : List (List Char × JElem) → Bool
  | [] => true
  | kv :: rest => !(rest.any (fun kv2 => kv2.1 = kv.1)) && keysNodup rest

/-- Whether a parsed object association list binds the key. -/
def containsJ (m : List (List Char × JElem)) (k : List Char) : Bool :=
  m.any (fun kv => kv.1 = k)

/-- The value a parsed object association list binds the key to (the first
entry, which under keysNodup is the only one). -/
def lookupJ (m : List (List Char × JElem)) (k : List Char) : Option JElem :=
  (m.find? (fun kv => kv.1 = k)).map (fun kv => kv.2)

mutual

/-- Every object in the tree has pairwise distinct keys. -/
def keysNodupAll : JElem → Bool
  | .jObj entries => keysNodup entries && keysNodupEntries entries
  | .jArr elems => keysNodupElems elems
  | _ => true

def keysNodupEntries : List (List Char × JElem) → Bool
  | [] => true
  | kv :: rest => keysNodupAll kv.2 && keysNodupEntries rest

def keysNodupElems : List JElem → Bool
  | [] => true
  | v :: rest => keysNodupAll v && keysNodupElems rest

end

mutual

/-- Every string payload in the tree, keys included, is of the shape the
lexer can emit. -/
def wfStrings : JElem → Bool
  | .jStr s => rawStringOK s
  | .jObj entries => wfStringsEntries entries
  | .jArr elems => wfStringsElems elems
  | _ => true

def wfStringsEntries : List (List Char × JElem) → Bool
  | [] => true
  | kv :: rest => rawStringOK kv.1 && wfStrings kv.2 && wfStringsEntries rest

def wfStringsElems : List JElem → Bool
  | [] => true
  | v :: rest => wfStrings v && wfStringsElems rest

end

mutual

/-- Every object and every array in the tree is nonempty. -/
def noEmpty : JElem → Bool
  | .jObj entries => entries.length ≠ 0 && noEmptyEntries entries
  | .jArr elems => elems.length ≠ 0 && noEmptyElems elems
  | _ => true

def noEmptyEntries : List (List Char × JElem) → Bool
  | [] => true
  | kv :: rest => noEmpty kv.2 && noEmptyEntries rest

def noEmptyElems : List JElem → Bool
  | [] => true
  | v :: rest => noEmpty v && noEmptyElems rest

end

mutual

/-- The tree with every number leaf rounded to six decimal places: what
the compact serialization followed by a re-parse produces. -/
def mapRound6 : JElem → JElem
  | .jStr s => .jStr s
  | .jNum q => .jNum (round6 q)
  | .jBool b => .jBool b
  | .jNull => .jNull
  | .jObj entries => .jObj (mapRound6Entries entries)
  | .jArr elems => .jArr (mapRound6Elems elems)

def mapRound6Entries : List (List Char × JElem) → List (List Char × JElem)
  | [] => []
  | kv :: rest => (kv.1, mapRound6 kv.2) :: mapRound6Entries rest

def mapRound6Elems : List JElem → List JElem
  | [] => []
  | v :: rest => mapRound6 v :: mapRound6Elems rest

end

mutual

/-- The comparison of the round-trip claim: identical tags throughout,
identical keys (in order, hence identical key sets) in every object,
identical array lengths and order, equal string, boolean and null leaves,
and number leaves equal up to the claim's floating tolerance, here half of
the last printed decimal place. -/
def treeSim : JElem → JElem → Prop
  | .jStr s, .jStr s' => s = s'
  | .jNum q, .jNum q' => |q - q'| ≤ mkRat 1 2000000
  | .jBool b, .jBool b' => b = b'
  | .jNull, .jNull => True
  | .jObj es, .jObj es' => treeSimEntries es es'
  | .jArr vs, .jArr vs' => treeSimElems vs vs'
  | _, _ => False

def treeSimEntries : List (List Char × JElem) → List (List Char × JElem) → Prop
  | [], [] => True
  | kv :: rest, kv' :: rest' => kv.1 = kv'.1 ∧ treeSim kv.2 kv'.2 ∧ treeSimEntries rest rest'
  | _, _ => False

def treeSimElems : List JElem → List JElem → Prop
  | [], [] => True
  | v :: rest, v' :: rest' => treeSim v v' ∧ treeSimElems rest rest'
  | _, _ => False

end

mutual

/-- The token sequence the compact serialization of a tree lexes to, for
trees whose containers are all nonempty. -/
def tokensOfElem : JElem → List Token
  | .jStr s => [JsonLexer.stringToken s]
  | .jNum q => [{ tokenType := .NUMBER, lexeme := fmt6 q, literal := .num (round6 q) }]
  | .jBool true => [{ tokenType := .TRUE_LITERAL, lexeme := ['t','r','u','e'], literal := .bool true }]
  | .jBool false => [{ tokenType := .FALSE_LITERAL, lexeme := ['f','a','l','s','e'], literal := .bool false }]
  | .jNull => [{ tokenType := .NULL_LITERAL, lexeme := ['n','u','l','l'], literal := .none }]
  | .jObj entries => JsonLexer.punct '{' .LBRACE :: tokensOfEntries entries ++ [JsonLexer.punct '}' .RBRACE]
  | .jArr elems => JsonLexer.punct '[' .LBRACKET :: tokensOfElems elems ++ [JsonLexer.punct ']' .RBRACKET]

def tokensOfEntries : List (List Char × JElem) → List Token
  | [] => []
  | [kv] => JsonLexer.stringToken kv.1 :: JsonLexer.punct ':' .COLON :: tokensOfElem kv.2
  | kv :: rest => JsonLexer.stringToken kv.1 :: JsonLexer.punct ':' .COLON :: tokensOfElem kv.2
      ++ JsonLexer.punct ',' .COMMA :: tokensOfEntries rest

def tokensOfElems : List JElem → List Token
  | [] => []
  | [v] => tokensOfElem v
  | v :: rest => tokensOfElem v ++ JsonLexer.punct ',' .COMMA :: tokensOfElems rest

end

/-- Shorthand for the object-loop induction hypothesis. -/
def ObjIH (n : Nat) : Prop :=
  ∀ ts acc res rest, BeginParseObjectF n ts acc = .ok (res, rest) →
    keysNodup acc = true → keysNodupEntries acc = true →
    keysNodup res = true ∧ keysNodupEntries res = true ∧
      ∀ k, containsJ acc k = true → lookupJ res k = lookupJ acc k

/-- Shorthand for the array-loop induction hypothesis. -/
def ArrIH (n : Nat) : Prop :=
  ∀ ts acc res rest, BeginParseArrayF n ts acc = .ok (res, rest) →
    keysNodupElems acc = true → keysNodupElems res = true


/-- The characters that may legally follow a serialized number in the
compact output: end of text, a comma or a space; anything that neither
extends a digit run nor introduces an exponent. -/
def numSafe (rest : List Char) : Prop :=
  JsonLexer.isDigit (rest.headD '\x00') = false ∧
    rest.headD '\x00' ≠ 'e' ∧ rest.headD '\x00' ≠ 'E'

mutual

/-- Number of scanToken dispatches consumed while lexing the compact
serialization of a tree: one per token plus one per whitespace
character. -/
def lexSteps : JElem → Nat
  | .jObj es => 2 + entriesSteps es
  | .jArr vs => 2 + elemsSteps vs
  | _ => 1

def entriesSteps : List (List Char × JElem) → Nat
  | [] => 0
  | kv :: rest => 5 + lexSteps kv.2 + entriesSteps rest

def elemsSteps : List JElem → Nat
  | [] => 0
  | v :: rest => 2 + lexSteps v + elemsSteps rest

end

/-- Lexing statement for one serialized value followed by safe text. -/
def LS (t : JElem) : Prop :=
  wfStrings t = true → noEmpty t = true →
  ∀ rest n ts, numSafe rest → JsonLexer.scanTokensF n rest = .ok ts →
    JsonLexer.scanTokensF (lexSteps t + n) (ToStringC t ++ rest) =
      .ok (tokensOfElem t ++ ts)

/-- Lexing statement for a serialized object body (member list with the
trailing space and closing brace). -/
def LSE (es : List (List Char × JElem)) : Prop :=
  wfStringsEntries es = true → noEmptyEntries es = true → es ≠ [] →
  ∀ rest n ts, JsonLexer.scanTokensF n rest = .ok ts →
    JsonLexer.scanTokensF (entriesSteps es + n) (serObjEntries es ++ rest) =
      .ok (tokensOfEntries es ++ JsonLexer.punct '}' .RBRACE :: ts)

/-- Lexing statement for a serialized array body. -/
def LSV (vs : List JElem) : Prop :=
  wfStringsElems vs = true → noEmptyElems vs = true → vs ≠ [] →
  ∀ rest n ts, JsonLexer.scanTokensF n rest = .ok ts →
    JsonLexer.scanTokensF (elemsSteps vs + n) (serArrElems vs ++ rest) =
      .ok (tokensOfElems vs ++ JsonLexer.punct ']' .RBRACKET :: ts)

/-- The object loop's accumulated container after emplacing the re-parsed
(rounded) value for each serialized entry in order. -/
def foldEmplace (acc : List (List Char × JElem)) : List (List Char × JElem) →
    List (List Char × JElem)
  | [] => acc
  | kv :: rest => foldEmplace (emplace acc kv.1 (mapRound6 kv.2)) rest

/-- Round-trip statement for the object loop at a given fuel. -/
def RTObj (n : Nat) : Prop :=
  ∀ es acc post, es ≠ [] → keysNodupEntries es = true →
    2 * (tokensOfEntries es).length + 2 ≤ n →
    BeginParseObjectF n (tokensOfEntries es ++ JsonLexer.punct '}' .RBRACE :: post) acc =
      .ok (foldEmplace acc es, post)

/-- Round-trip statement for the array loop at a given fuel. -/
def RTArr (n : Nat) : Prop :=
  ∀ vs acc post, keysNodupElems vs = true →
    2 * (tokensOfElems vs).length + 2 ≤ n →
    BeginParseArrayF n (tokensOfElems vs ++ JsonLexer.punct ']' .RBRACKET :: post) acc =
      .ok (acc ++ mapRound6Elems vs, post)

/-- A token the lexer can emit: if it is a STRING token its payload is a
raw string of the shape ReadString produces. -/
def tokOK (tk : Token) : Prop :=
  tk.tokenType = .STRING → rawStringOK (litAsString tk.literal) = true

/-- Parser invariant: an object loop fed well-formed tokens over a
well-formed accumulator produces a well-formed container and leaves only
well-formed tokens. -/
def ObjWF (n : Nat) : Prop :=
  ∀ ts acc res rest, BeginParseObjectF n ts acc = .ok (res, rest) →
    (∀ tk ∈ ts, tokOK tk) → wfStringsEntries acc = true →
    wfStringsEntries res = true ∧ ∀ tk ∈ rest, tokOK tk

/-- Parser invariant for the array loop. -/
def ArrWF (n : Nat) : Prop :=
  ∀ ts acc res rest, BeginParseArrayF n ts acc = .ok (res, rest) →
    (∀ tk ∈ ts, tokOK tk) → wfStringsElems acc = true →
    wfStringsElems res = true ∧ ∀ tk ∈ rest, tokOK tk

/-! ## Helper lemmas for the value model -/

theorem lookupKey_eq_none_of_not_contains {m : List (List Char × Element)} {k : List Char}
    (h : containsKey m k = false) : lookupKey m k = none := by
  induction m with
  | nil => rfl
  | cons kv rest ih =>
    simp only [containsKey, List.any_cons, Bool.or_eq_false_iff] at h
    have h1 : (decide (kv.1 = k)) = false := h.1
    have h2 : lookupKey rest k = none := ih h.2
    unfold lookupKey at h2 ⊢
    rw [List.find?_cons, h1]
    exact h2

theorem containsKey_append_self (m : List (List Char × Element)) (k : List Char)
    (v : Element) : containsKey (m ++ [(k, v)]) k = true := by
  simp [containsKey, List.any_append]

/-! ## Helper lemmas for the parser: distinct keys

unordered_map::emplace never creates a duplicate key and never disturbs an
existing binding; these lemmas propagate that through both parsing loops. -/

theorem keysNodup_append_single {m : List (List Char × JElem)} {k : List Char} {v : JElem}
    (hfresh : m.any (fun kv => kv.1 = k) = false) (h : keysNodup m = true) :
    keysNodup (m ++ [(k, v)]) = true := by
  induction m with
  | nil => simp [keysNodup]
  | cons kv rest ih =>
    simp only [List.any_cons, Bool.or_eq_false_iff] at hfresh
    simp only [keysNodup, Bool.and_eq_true, Bool.not_eq_true'] at h
    simp only [List.cons_append, keysNodup, Bool.and_eq_true, Bool.not_eq_true']
    refine ⟨?_, ih hfresh.2 h.2⟩
    rw [List.any_eq_false]
    intro x hx
    rcases List.mem_append.1 hx with hx | hx
    · exact (List.any_eq_false.1 h.1) x hx
    · rcases List.mem_singleton.1 hx with rfl
      simp only [decide_eq_true_eq]
      intro hh
      rw [decide_eq_false_iff_not] at hfresh
      exact hfresh.1 hh.symm

theorem keysNodup_emplace {m : List (List Char × JElem)} {k : List Char} {v : JElem}
    (h : keysNodup m = true) : keysNodup (emplace m k v) = true := by
  unfold emplace
  split
  · exact h
  · rename_i hc
    exact keysNodup_append_single ((Bool.not_eq_true _) ▸ hc) h

theorem keysNodupEntries_append_single {m : List (List Char × JElem)} {k : List Char}
    {v : JElem} (hm : keysNodupEntries m = true) (hv : keysNodupAll v = true) :
    keysNodupEntries (m ++ [(k, v)]) = true := by
  induction m with
  | nil => simp [keysNodupEntries, hv]
  | cons kv rest ih =>
    simp only [keysNodupEntries, Bool.and_eq_true] at hm
    simp only [List.cons_append, keysNodupEntries, Bool.and_eq_true]
    exact ⟨hm.1, ih hm.2⟩

theorem keysNodupEntries_emplace {m : List (List Char × JElem)} {k : List Char} {v : JElem}
    (hm : keysNodupEntries m = true) (hv : keysNodupAll v = true) :
    keysNodupEntries (emplace m k v) = true := by
  unfold emplace
  split
  · exact hm
  · exact keysNodupEntries_append_single hm hv

theorem keysNodupElems_append {l : List JElem} {v : JElem}
    (hl : keysNodupElems l = true) (hv : keysNodupAll v = true) :
    keysNodupElems (l ++ [v]) = true := by
  induction l with
  | nil => simp [keysNodupElems, hv]
  | cons x rest ih =>
    simp only [keysNodupElems, Bool.and_eq_true] at hl
    simp only [List.cons_append, keysNodupElems, Bool.and_eq_true]
    exact ⟨hl.1, ih hl.2⟩

theorem containsJ_emplace_mono {m : List (List Char × JElem)} {k k' : List Char} {v : JElem}
    (h : containsJ m k' = true) : containsJ (emplace m k v) k' = true := by
  unfold emplace
  split
  · exact h
  · unfold containsJ at h ⊢
    rw [List.any_append, h, Bool.true_or]

theorem lookupJ_emplace_of_contains {m : List (List Char × JElem)} {k k' : List Char} {v : JElem}
    (h : containsJ m k' = true) : lookupJ (emplace m k v) k' = lookupJ m k' := by
  unfold emplace
  split
  · rfl
  · unfold containsJ at h
    rcases List.any_eq_true.1 h with ⟨kv, hkv, hp⟩
    unfold lookupJ
    have : m.find? (fun kv => kv.1 = k') |>.isSome := by
      rw [List.find?_isSome]
      exact ⟨kv, hkv, hp⟩
    rcases Option.isSome_iff_exists.1 this with ⟨y, hy⟩
    rw [List.find?_append, hy]
    rfl


/-- The separator step of the object loop, after an entry with key kk and
value vv was emplaced, when tokens remain. -/
theorem objSepCons_fw {n : Nat} {sep : Token} {rest' : List Token}
    {acc : List (List Char × JElem)} {kk : List Char} {vv : JElem}
    {res : List (List Char × JElem)} {rest : List Token}
    (ihobj : ObjIH n)
    (h : (if sep.tokenType = TokenType.COMMA then
            BeginParseObjectF n rest' (emplace acc kk vv)
          else if sep.tokenType = TokenType.RBRACE then
            Except.ok (emplace acc kk vv, rest')
          else BeginParseObjectF n (sep :: rest') (emplace acc kk vv)) = .ok (res, rest))
    (hacc : keysNodup acc = true) (hent : keysNodupEntries acc = true)
    (hvv : keysNodupAll vv = true) :
    keysNodup res = true ∧ keysNodupEntries res = true ∧
      ∀ k, containsJ acc k = true → lookupJ res k = lookupJ acc k := by
  have hc := keysNodup_emplace (k := kk) (v := vv) hacc
  have he := keysNodupEntries_emplace (k := kk) (v := vv) hent hvv
  split at h
  · rcases ihobj _ _ _ _ h hc he with ⟨h1, h2, h3⟩
    exact ⟨h1, h2, fun k hk => by
      rw [h3 k (containsJ_emplace_mono hk), lookupJ_emplace_of_contains hk]⟩
  · split at h
    · cases h
      exact ⟨hc, he, fun k hk => lookupJ_emplace_of_contains hk⟩
    · rcases ihobj _ _ _ _ h hc he with ⟨h1, h2, h3⟩
      exact ⟨h1, h2, fun k hk => by
        rw [h3 k (containsJ_emplace_mono hk), lookupJ_emplace_of_contains hk]⟩

/-- The separator step of the array loop after appending an element. -/
theorem arrSepCons_fw {n : Nat} {sep : Token} {rest' : List Token}
    {acc : List JElem} {vv : JElem} {res : List JElem} {rest : List Token}
    (iharr : ArrIH n)
    (h : (if sep.tokenType = TokenType.COMMA then
            BeginParseArrayF n rest' (acc ++ [vv])
          else if sep.tokenType = TokenType.RBRACKET then
            Except.ok (acc ++ [vv], rest')
          else BeginParseArrayF n (sep :: rest') (acc ++ [vv])) = .ok (res, rest))
    (hacc : keysNodupElems acc = true) (hvv : keysNodupAll vv = true) :
    keysNodupElems res = true := by
  have hc := keysNodupElems_append hacc hvv
  split at h
  · exact iharr _ _ _ _ h hc
  · split at h
    · cases h
      exact hc
    · exact iharr _ _ _ _ h hc

theorem parseLoops_nodup : ∀ n : Nat, ObjIH n ∧ ArrIH n := by
  intro n
  induction n with
  | zero =>
    constructor
    · intro ts acc res rest h
      simp [BeginParseObjectF] at h
    · intro ts acc res rest h
      simp [BeginParseArrayF] at h
  | succ n ih =>
    constructor
    · intro ts acc res rest h hacc hent
      cases ts with
      | nil =>
        simp only [BeginParseObjectF] at h
        cases h
        exact ⟨hacc, hent, fun k _ => rfl⟩
      | cons key ts1 =>
        simp only [BeginParseObjectF] at h
        split at h
        · split at h
          · exact absurd h (by simp)
          · cases h
            exact ⟨hacc, hent, fun k _ => rfl⟩
        · split at h
          · exact absurd h (by simp)
          · split at h
            · exact absurd h (by simp)
            · split at h
              · exact absurd h (by simp)
              · split at h
                · exact absurd h (by simp)
                · split at h
                  all_goals try exact absurd h (by simp)
                  rename_i sub elem ts4 heq
                  have hvv : keysNodupAll elem = true := by
                    split at heq
                    · cases heq; rfl
                    · cases heq; rfl
                    · cases heq; rfl
                    · cases heq; rfl
                    · cases heq; rfl
                    · rcases hsub : BeginParseObjectF n _ [] with e | ⟨subres, tsx⟩
                      · rw [hsub] at heq
                        exact absurd heq (by simp [Except.map])
                      · rw [hsub] at heq
                        simp only [Except.map] at heq
                        cases heq
                        rcases ih.1 _ _ _ _ hsub rfl rfl with ⟨hs1, hs2, _⟩
                        simp [keysNodupAll, hs1, hs2]
                    · rcases hsub : BeginParseArrayF n _ [] with e | ⟨subres, tsx⟩
                      · rw [hsub] at heq
                        exact absurd heq (by simp [Except.map])
                      · rw [hsub] at heq
                        simp only [Except.map] at heq
                        cases heq
                        have hs1 := ih.2 _ _ _ _ hsub rfl
                        simp [keysNodupAll, hs1]
                    · exact absurd heq (by simp)
                  cases ts4 with
                  | nil =>
                    have hh := Except.ok.inj h
                    rw [Prod.mk.injEq] at hh
                    obtain ⟨hh1, hh2⟩ := hh
                    subst hh1
                    subst hh2
                    exact ⟨keysNodup_emplace hacc, keysNodupEntries_emplace hent hvv,
                      fun k hk => lookupJ_emplace_of_contains hk⟩
                  | cons sep rest' =>
                    exact objSepCons_fw ih.1 h hacc hent hvv
    · intro ts acc res rest h hacc
      cases ts with
      | nil =>
        simp only [BeginParseArrayF] at h
        cases h
        exact hacc
      | cons value ts1 =>
        simp only [BeginParseArrayF] at h
        split at h
        · cases h
          exact hacc
        · split at h
          all_goals try exact absurd h (by simp)
          rename_i sub elem ts2 heq
          have hvv : keysNodupAll elem = true := by
            split at heq
            · cases heq; rfl
            · cases heq; rfl
            · cases heq; rfl
            · cases heq; rfl
            · cases heq; rfl
            · rcases hsub : BeginParseObjectF n _ [] with e | ⟨subres, tsx⟩
              · rw [hsub] at heq
                exact absurd heq (by simp [Except.map])
              · rw [hsub] at heq
                simp only [Except.map] at heq
                cases heq
                rcases ih.1 _ _ _ _ hsub rfl rfl with ⟨hs1, hs2, _⟩
                simp [keysNodupAll, hs1, hs2]
            · rcases hsub : BeginParseArrayF n _ [] with e | ⟨subres, tsx⟩
              · rw [hsub] at heq
                exact absurd heq (by simp [Except.map])
              · rw [hsub] at heq
                simp only [Except.map] at heq
                cases heq
                have hs1 := ih.2 _ _ _ _ hsub rfl
                simp [keysNodupAll, hs1]
            · exact absurd heq (by simp)
          cases ts2 with
          | nil =>
            have hh := Except.ok.inj h
            rw [Prod.mk.injEq] at hh
            obtain ⟨hh1, hh2⟩ := hh
            subst hh1
            subst hh2
            exact keysNodupElems_append hacc hvv
          | cons sep rest' =>
            exact arrSepCons_fw ih.2 h hacc hvv


theorem Parse_keysNodupAll {src : List Char} {t : JElem} (h : Parse src = .ok t) :
    keysNodupAll t = true := by
  unfold Parse at h
  cases hts : JsonLexer.scanTokens src with
  | error e =>
    rw [hts] at h
    exact absurd h (by simp)
  | ok tokens =>
    rw [hts] at h
    replace h : ParseTokens tokens = .ok t := h
    unfold ParseTokens at h
    cases tokens with
    | nil => exact absurd h (by simp)
    | cons t0 ts =>
      replace h : (if t0.tokenType = TokenType.LBRACE then
          (BeginParseObjectF (2 * (t0 :: ts).length + 2) ts []).map (fun p => JElem.jObj p.1)
        else if t0.tokenType = TokenType.LBRACKET then
          (BeginParseArrayF (2 * (t0 :: ts).length + 2) ts []).map (fun p => JElem.jArr p.1)
        else .error .invalidStart) = .ok t := h
      split at h
      · cases hp : BeginParseObjectF (2 * (t0 :: ts).length + 2) ts [] with
        | error e =>
          rw [hp] at h
          exact absurd h (by simp [Except.map])
        | ok p =>
          rw [hp] at h
          simp only [Except.map] at h
          cases h
          rcases (parseLoops_nodup _).1 _ _ _ _ hp rfl rfl with ⟨h1, h2, _⟩
          simp [keysNodupAll, h1, h2]
      · split at h
        · cases hp : BeginParseArrayF (2 * (t0 :: ts).length + 2) ts [] with
          | error e =>
            rw [hp] at h
            exact absurd h (by simp [Except.map])
          | ok p =>
            rw [hp] at h
            simp only [Except.map] at h
            cases h
            have h1 := (parseLoops_nodup _).2 _ _ _ _ hp rfl
            simp [keysNodupAll, h1]
        · exact absurd h (by simp)

/-- C1 counterexample: parsing an object text that binds the key a twice,
first to 1 and then to 2, yields an object whose single binding for a is
the FIRST value 1, and no parse of that text binds a to 2 - against the
claim's last-occurrence-wins. -/
theorem claim_C1_counterexample :
    Parse ['{', '"', 'a', '"', ':', '1', ',', '"', 'a', '"', ':', '2', '}'] =
      .ok (.jObj [(['a'], .jNum (mkRat 1 1))]) ∧
    (∀ es, Parse ['{', '"', 'a', '"', ':', '1', ',', '"', 'a', '"', ':', '2', '}'] =
        .ok (.jObj es) → ¬ lookupJ es ['a'] = some (.jNum (mkRat 2 1))) := by
  refine ⟨rfl, ?_⟩
  intro es hes hlook
  rw [show Parse ['{', '"', 'a', '"', ':', '1', ',', '"', 'a', '"', ':', '2', '}'] =
      .ok (.jObj [(['a'], .jNum (mkRat 1 1))]) from rfl] at hes
  have h1 := JElem.jObj.inj (Except.ok.inj hes)
  rw [← h1] at hlook
  rw [show lookupJ [(['a'], JElem.jNum (mkRat 1 1))] ['a'] =
      some (.jNum (mkRat 1 1)) from rfl] at hlook
  have h2 := JElem.jNum.inj (Option.some.inj hlook)
  exact absurd (congrArg Rat.num h2) (by decide)

/-- C1 (amended): duplicate keys collapse to the FIRST occurrence, not the
last: parsing an object text that binds a to 1 and then to 2 yields exactly
one binding of a, to 1; every parsed tree has pairwise distinct keys in
every object; and the object loop never alters an existing binding - the
value a key was first emplaced with is the value it keeps. -/
theorem claim_C1_duplicate_keys :
    Parse ['{', '"', 'a', '"', ':', '1', ',', '"', 'a', '"', ':', '2', '}'] =
      .ok (.jObj [(['a'], .jNum (mkRat 1 1))]) ∧
    (∀ (src : List Char) (t : JElem), Parse src = .ok t → keysNodupAll t = true) ∧
    (∀ (n : Nat) (ts : List Token) (acc res : List (List Char × JElem)) (rest : List Token),
        BeginParseObjectF n ts acc = .ok (res, rest) →
        keysNodup acc = true → keysNodupEntries acc = true →
        ∀ k, containsJ acc k = true → lookupJ res k = lookupJ acc k) := by
  refine ⟨rfl, ?_, ?_⟩
  · intro src t h
    exact Parse_keysNodupAll h
  · intro n ts acc res rest h hacc hent
    exact ((parseLoops_nodup n).1 _ _ _ _ h hacc hent).2.2

theorem claim_C1_duplicate_keys_witness :
    keysNodupAll (.jObj [(['a'], .jNum (mkRat 1 1))]) = true :=
  claim_C1_duplicate_keys.2.1 ['{', '"', 'a', '"', ':', '1', ',', '"', 'a', '"', ':', '2', '}']
    (.jObj [(['a'], .jNum (mkRat 1 1))]) (by rfl)


/-- C10: for every Element whose tag is neither Array nor Null, the
stream-insert operator applied to a value of any supported type returns
the Element with tag and payload unchanged (it silently does nothing),
and it throws exactly when the supplied value's type is unsupported,
regardless of the Element's tag. -/
theorem claim_C10_stream_insert_frame :
    (∀ (e : Element) (p : Payload), e.1 ≠ .ARRAY → e.1 ≠ .NULL_LITERAL →
        shiftInsert e (.sup p) = .ok e) ∧
    (∀ e : Element, shiftInsert e .unsup = .error .notAllowedAssign ∧
        isThrown .notAllowedAssign = true) := by
  constructor
  · intro e p hA hN
    simp [shiftInsert, hA, hN]
  · intro e
    exact ⟨rfl, rfl⟩

theorem claim_C10_stream_insert_frame_witness :
    shiftInsert (.STRING_LITERAL, some (.pStr [])) (.sup (.pBool true)) =
      .ok (.STRING_LITERAL, some (.pStr [])) :=
  claim_C10_stream_insert_frame.1 (.STRING_LITERAL, some (.pStr [])) (.pBool true)
    (by decide) (by decide)

/-- C8 counterexample: a Number-tagged Element parsed from input stores a
Value of double; requesting it as int is a supported request whose mapped
tag equals the Element's tag, yet the probing accessor returns false with
a null pointer, contradicting the claim that a tag match makes the
probing form succeed. -/
theorem claim_C8_counterexample :
    (((.NUMBER_LITERAL, some (.pNum .hdouble (mkRat 1 1))) : Element).1 = ValueType_of .tint) ∧
    TryGetValueAs .tint (.NUMBER_LITERAL, some (.pNum .hdouble (mkRat 1 1))) = (false, none) :=
  ⟨rfl, rfl⟩

/-- C8 amended: for every supported requested type whose mapped tag
differs from the Element's tag, the throwing accessor throws a
type-mismatch error and the probing accessor returns false with a null
pointer; when the tags match, the probing accessor returns true with a
pointer to the payload exactly when the stored payload is the Value
instantiation of the requested type itself (so a number stored as double
still probes false as int, long or float), and in that case the throwing
accessor returns the same payload. -/
theorem claim_C8_typed_accessors :
    (∀ (t : PType) (e : Element), e.1 ≠ ValueType_of t →
        GetValueAs t e = .error .valueTypeMismatch ∧
        isThrown .valueTypeMismatch = true ∧
        TryGetValueAs t e = (false, none)) ∧
    (∀ (t : PType) (e : Element) (p : Payload), e.1 = ValueType_of t →
        (TryGetValueAs t e = (true, some p) ↔ (e.2 = some p ∧ dynamicCast t p = true)) ∧
        (TryGetValueAs t e = (true, some p) → GetValueAs t e = .ok p)) := by
  constructor
  · intro t e h
    refine ⟨?_, rfl, ?_⟩
    · simp [GetValueAs, allowed_types, h]
    · simp [TryGetValueAs, allowed_types, h]
  · intro t e p h
    obtain ⟨tag, pay⟩ := e
    simp only at h
    subst h
    constructor
    · cases pay with
      | none => simp [TryGetValueAs, allowed_types]
      | some q =>
        by_cases hd : dynamicCast t q = true
        · simp [TryGetValueAs, allowed_types, hd]
          intro h'
          subst h'
          exact hd
        · simp [TryGetValueAs, allowed_types, hd]
          intro h'
          subst h'
          simp [hd]
    · cases pay with
      | none => simp [TryGetValueAs, allowed_types]
      | some q =>
        by_cases hd : dynamicCast t q = true
        · simp [TryGetValueAs, GetValueAs, allowed_types, hd]
        · simp [TryGetValueAs, allowed_types, hd]

theorem claim_C8_typed_accessors_witness :
    (GetValueAs .tdouble (.STRING_LITERAL, some (.pStr ['x'])) = .error .valueTypeMismatch ∧
      isThrown .valueTypeMismatch = true ∧
      TryGetValueAs .tdouble (.STRING_LITERAL, some (.pStr ['x'])) = (false, none)) ∧
    (TryGetValueAs .tstring (.STRING_LITERAL, some (.pStr ['x'])) =
        (true, some (.pStr ['x'])) ↔
      ((((.STRING_LITERAL, some (.pStr ['x'])) : Element).2 = some (.pStr ['x'])) ∧
        dynamicCast .tstring (.pStr ['x']) = true)) :=
  ⟨claim_C8_typed_accessors.1 .tdouble (.STRING_LITERAL, some (.pStr ['x'])) (by decide),
   (claim_C8_typed_accessors.2 .tstring (.STRING_LITERAL, some (.pStr ['x']))
      (.pStr ['x']) rfl).1⟩

/-- C7: on an Object-tagged Element (with its JObject payload), looking up
a key that is not present stores a default-constructed Null-tagged Element
at that key as part of the lookup itself and returns it, and the key is
present afterwards; the same single operator serves reads and writes.  On
an Element of any other tag the access throws and the Element is
unchanged. -/
theorem claim_C7_key_access_autovivifies :
    (∀ (m : List (List Char × Element)) (k : List Char),
        containsKey m k = false →
        index_key (.OBJECT, some (.pObj m)) k =
          (.ok defaultElement, (.OBJECT, some (.pObj (m ++ [(k, defaultElement)])))) ∧
        defaultElement.1 = .NULL_LITERAL ∧
        containsKey (m ++ [(k, defaultElement)]) k = true) ∧
    (∀ (e : Element) (k : List Char), e.1 ≠ .OBJECT →
        index_key e k = (.error .accessWrongType, e) ∧
        isThrown .accessWrongType = true) := by
  constructor
  · intro m k h
    refine ⟨?_, rfl, containsKey_append_self m k defaultElement⟩
    simp [index_key, GetValueAs, allowed_types, ValueType_of, dynamicCast,
      lookupKey_eq_none_of_not_contains h]
  · intro e k h
    exact ⟨by simp [index_key, h], rfl⟩

theorem claim_C7_key_access_autovivifies_witness :
    index_key (.OBJECT, some (.pObj [])) ['k'] =
      (.ok defaultElement, (.OBJECT, some (.pObj [(['k'], defaultElement)]))) ∧
    index_key (.ARRAY, some (.pArr [])) ['k'] =
      (.error .accessWrongType, (.ARRAY, some (.pArr []))) :=
  ⟨((claim_C7_key_access_autovivifies.1 [] ['k'] rfl).1),
   (claim_C7_key_access_autovivifies.2 (.ARRAY, some (.pArr [])) ['k'] (by decide)).1⟩

/-- C6 counterexample: indexing an Array-tagged Element of length zero at
index zero is an unchecked vector access: no exception is thrown (nothing
is signalled; the behaviour of the program is undefined), so the claim
that an out-of-range index access fails with a signalled error is false;
the array is nevertheless not extended. -/
theorem claim_C6_counterexample :
    (index_at (.ARRAY, some (.pArr [])) 0).1 = .error .indexOutOfBounds ∧
    isThrown .indexOutOfBounds = false ∧
    (index_at (.ARRAY, some (.pArr [])) 0).2 = (.ARRAY, some (.pArr [])) :=
  ⟨rfl, rfl, rfl⟩

/-- C6 amended: index access on an Element whose tag is not Array throws a
type error and leaves the Element unchanged; on an Array-tagged Element an
index that is in range returns that member, while an index past the end is
not bounds-checked, so nothing is signalled (undefined behaviour of the
vector access); in no case is the array extended. -/
theorem claim_C6_index_access :
    (∀ (e : Element) (i : Nat), e.1 ≠ .ARRAY →
        index_at e i = (.error .accessWrongType, e) ∧
        isThrown .accessWrongType = true) ∧
    (∀ (l : List Element) (i : Nat), l.length ≤ i →
        index_at (.ARRAY, some (.pArr l)) i =
          (.error .indexOutOfBounds, (.ARRAY, some (.pArr l))) ∧
        isThrown .indexOutOfBounds = false) ∧
    (∀ (l : List Element) (i : Nat) (h : i < l.length),
        index_at (.ARRAY, some (.pArr l)) i =
          (.ok (l.get ⟨i, h⟩), (.ARRAY, some (.pArr l)))) := by
  refine ⟨?_, ?_, ?_⟩
  · intro e i h
    exact ⟨by simp [index_at, h], rfl⟩
  · intro l i h
    refine ⟨?_, rfl⟩
    simp [index_at, GetValueAs, allowed_types, ValueType_of, dynamicCast,
      List.getElem?_eq_none h]
  · intro l i h
    simp [index_at, GetValueAs, allowed_types, ValueType_of, dynamicCast,
      List.getElem?_eq_getElem h]

theorem claim_C6_index_access_witness :
    (index_at (.OBJECT, some (.pObj [])) 0 =
        (.error .accessWrongType, (.OBJECT, some (.pObj []))) ∧
      isThrown .accessWrongType = true) ∧
    (index_at (.ARRAY, some (.pArr [defaultElement])) 5 =
        (.error .indexOutOfBounds, (.ARRAY, some (.pArr [defaultElement]))) ∧
      isThrown .indexOutOfBounds = false) ∧
    index_at (.ARRAY, some (.pArr [defaultElement])) 0 =
      (.ok defaultElement, (.ARRAY, some (.pArr [defaultElement]))) :=
  ⟨claim_C6_index_access.1 (.OBJECT, some (.pObj [])) 0 (by decide),
   claim_C6_index_access.2.1 [defaultElement] 5 (by decide),
   claim_C6_index_access.2.2 [defaultElement] 0 (by decide)⟩

/-- C2: code bug.  In both parsing loops the separator switch's default
case constructs a runtime_error without throwing it (every comparable
default case in the same functions does throw), so a token that is neither
a comma nor the matching close token after a completed entry or value does
not fail the parse: the loop continues as if a comma had been consumed.
At the failing inputs, an array of two numbers with no comma and an object
of two entries with no comma, the parse succeeds and returns the full
container, where the claim and the spec say the whole parse fails with a
ParseError. -/
theorem claim_C2_missing_separator_not_rejected :
    Parse ['[', '1', ' ', '2', ']'] = .ok (.jArr [.jNum (mkRat 1 1), .jNum (mkRat 2 1)]) ∧
    Parse ['{', '"', 'a', '"', ':', '1', ' ', '"', 'b', '"', ':', '2', '}'] =
      .ok (.jObj [(['a'], .jNum (mkRat 1 1)), (['b'], .jNum (mkRat 2 1))]) :=
  ⟨rfl, rfl⟩

/-- C3 counterexample: the array text with a trailing comma parses
successfully to the two-element array instead of failing with a
ParseError. -/
theorem claim_C3_counterexample :
    Parse ['[', '1', ',', '2', ',', ']'] =
      .ok (.jArr [.jNum (mkRat 1 1), .jNum (mkRat 2 1)]) ∧
    (∀ e : ParseError, Parse ['[', '1', ',', '2', ',', ']'] ≠ .error e) := by
  refine ⟨rfl, ?_⟩
  intro e h
  rw [show Parse ['[', '1', ',', '2', ',', ']'] =
      .ok (.jArr [.jNum (mkRat 1 1), .jNum (mkRat 2 1)]) from rfl] at h
  exact Except.noConfusion h

/-- C3 amended: a comma immediately followed by the close bracket is
accepted: the close bracket read in value position returns the array built
so far (the early exit the source comments as applying also directly after
a value), so a trailing comma in an array is not an error; e.g. the text
with elements one and two and a trailing comma parses to the two-element
array. -/
theorem claim_C3_trailing_comma_accepted :
    Parse ['[', '1', ',', '2', ',', ']'] =
      .ok (.jArr [.jNum (mkRat 1 1), .jNum (mkRat 2 1)]) ∧
    (∀ (n : Nat) (tk : Token) (post : List Token) (acc : List JElem),
        tk.tokenType = .RBRACKET →
        BeginParseArrayF (n + 1) (tk :: post) acc = .ok (acc, post)) := by
  refine ⟨rfl, ?_⟩
  intro n tk post acc h
  simp [BeginParseArrayF, h]

theorem claim_C3_trailing_comma_accepted_witness :
    BeginParseArrayF 1 [JsonLexer.punct ']' .RBRACKET] [] = .ok ([], []) :=
  claim_C3_trailing_comma_accepted.2 0 (JsonLexer.punct ']' .RBRACKET) [] [] rfl

/-- C5: code bug.  Element::Remove(key) and Remove(at) begin with the bare
statement that compares the tag and then discards the boolean without
returning it, so on an Element of the wrong tag control reaches GetValueAs,
which throws, contradicting the claim (and the spec) that mutation
failures are reported through the boolean result without throwing.  At the
failing input, Remove(key) on an Array-tagged Element, the call throws the
tag-mismatch exception; Add, by contrast, does return false on a wrong
tag as the claim states. -/
theorem claim_C5_remove_wrong_tag_throws :
    Remove_key (.ARRAY, some (.pArr [])) ['x'] = .error .valueTypeMismatch ∧
    isThrown .valueTypeMismatch = true ∧
    Remove_at (.STRING_LITERAL, some (.pStr [])) 0 = .error .valueTypeMismatch ∧
    Add_key (.ARRAY, some (.pArr [])) ['x'] (.sup (.pBool true)) =
      .ok (false, (.ARRAY, some (.pArr []))) ∧
    Add_val (.OBJECT, some (.pObj [])) .unsup = .ok (false, (.OBJECT, some (.pObj []))) :=
  ⟨rfl, rfl, rfl, rfl, rfl⟩

theorem headNot_headD {p : Char → Bool} {l : List Char} (h : p (l.headD '\x00') = false) :
    headNot p l := by
  cases l with
  | nil => trivial
  | cons c r => exact h

theorem takeWhile_eq_nil_of_headNot {p : Char → Bool} {l : List Char} (h : headNot p l) :
    l.takeWhile p = [] := by
  cases l with
  | nil => rfl
  | cons c r =>
    simp only [List.takeWhile_cons]
    rw [show p c = false from h]
    simp

theorem drop_takeWhile_eq_dropWhile (p : Char → Bool) (l : List Char) :
    l.drop (l.takeWhile p).length = l.dropWhile p := by
  induction l with
  | nil => rfl
  | cons c r ih =>
    simp only [List.takeWhile_cons, List.dropWhile_cons]
    split
    · simpa using ih
    · rfl

theorem headNot_dropWhile (p : Char → Bool) (l : List Char) : headNot p (l.dropWhile p) := by
  have h := List.head?_dropWhile_not p l
  cases hd : l.dropWhile p with
  | nil => trivial
  | cons c r =>
    rw [hd] at h
    exact h

theorem headNot_drop_takeWhile (p : Char → Bool) (l : List Char) :
    headNot p (l.drop (l.takeWhile p).length) := by
  rw [drop_takeWhile_eq_dropWhile]
  exact headNot_dropWhile p l

theorem digitRun_concat {p : Char → Bool} {xs ys : List Char}
    (hall : ∀ c ∈ xs, p c = true) (hne : xs ≠ []) (hy : headNot p ys) :
    digitRun p (xs ++ ys) = some ys := by
  unfold digitRun
  rw [List.takeWhile_append_of_pos hall, takeWhile_eq_nil_of_headNot hy, List.append_nil]
  rw [if_neg (by simpa using hne), List.drop_left]

theorem digitRun_all {p : Char → Bool} {xs : List Char}
    (hall : ∀ c ∈ xs, p c = true) (hne : xs ≠ []) : digitRun p xs = some [] := by
  have := @digitRun_concat _ _ [] hall hne trivial
  rwa [List.append_nil] at this

theorem takeWhile_ne_nil_of_head {p : Char → Bool} {l : List Char}
    (h : p (l.headD '\x00') = true) (h0 : p '\x00' = false) : l.takeWhile p ≠ [] := by
  cases l with
  | nil => rw [List.headD_nil] at h; rw [h] at h0; exact absurd h0 (by simp)
  | cons c r =>
    rw [List.headD_cons] at h
    simp [List.takeWhile_cons, h]

/-- What numFracPart can produce, given that its input starts with a
non-digit character: either nothing, or a dot followed by a nonempty digit
run; in both cases the remaining input again starts with a non-digit. -/
theorem numFracPart_spec (r1 : List Char) (h : headNot JsonLexer.isDigit r1) :
    headNot JsonLexer.isDigit (JsonLexer.numFracPart r1).2 ∧
    ((JsonLexer.numFracPart r1).1 = [] ∧ (JsonLexer.numFracPart r1).2 = r1 ∨
      ∃ t, t ≠ [] ∧ (∀ c ∈ t, JsonLexer.isDigit c = true) ∧
        (JsonLexer.numFracPart r1).1 = '.' :: t) := by
  unfold JsonLexer.numFracPart
  split
  · rename_i hc
    rw [Bool.and_eq_true] at hc
    constructor
    · exact headNot_drop_takeWhile _ _
    · right
      refine ⟨(r1.drop 1).takeWhile JsonLexer.isDigit, ?_, ?_, rfl⟩
      · cases hd : r1.drop 1 with
        | nil => rw [hd] at hc; simp [JsonLexer.isDigit] at hc
        | cons c rr =>
          rw [hd] at hc
          simp only [List.headD_cons] at hc
          simp [List.takeWhile_cons, hc.2]
      · intro c hcmem
        exact List.mem_takeWhile_imp hcmem
  · exact ⟨h, Or.inl ⟨rfl, rfl⟩⟩

/-- What numExpoPart can produce given a non-digit head: either nothing, or
a single e or E followed by input that starts with a digit. -/
theorem numExpoPart_spec (r2 : List Char) :
    ((JsonLexer.numExpoPart r2).1 = [] ∧ (JsonLexer.numExpoPart r2).2 = r2) ∨
    (∃ c, (c = 'e' ∨ c = 'E') ∧ (JsonLexer.numExpoPart r2).1 = [c] ∧
      JsonLexer.isDigit ((JsonLexer.numExpoPart r2).2.headD '\x00') = true) := by
  unfold JsonLexer.numExpoPart
  split
  · rename_i hc
    rw [Bool.and_eq_true, Bool.or_eq_true] at hc
    right
    refine ⟨r2.headD '\x00', ?_, rfl, ?_⟩
    · rcases hc.1 with h1 | h1
      · exact Or.inl (by exact of_decide_eq_true h1)
      · exact Or.inr (by exact of_decide_eq_true h1)
    · exact hc.2
  · exact Or.inl ⟨rfl, rfl⟩

theorem shape_D {a : List Char} (ha : a ≠ []) (hall : ∀ c ∈ a, JsonLexer.isDigit c = true) :
    numShapeWith JsonLexer.isDigit a = true := by
  unfold numShapeWith
  rw [digitRun_all hall ha]
  rfl

theorem shape_DF {a t : List Char} (ha : a ≠ []) (hall : ∀ c ∈ a, JsonLexer.isDigit c = true)
    (ht : t ≠ []) (hallt : ∀ c ∈ t, JsonLexer.isDigit c = true) :
    numShapeWith JsonLexer.isDigit (a ++ '.' :: t) = true := by
  unfold numShapeWith
  rw [digitRun_concat hall ha (by exact rfl)]
  show (match digitRun JsonLexer.isDigit t with
        | none => false
        | some r2 => numShapeTail2 JsonLexer.isDigit r2) = true
  rw [digitRun_all hallt ht]
  rfl

theorem shape_DE {a d : List Char} {c : Char} (ha : a ≠ [])
    (hall : ∀ x ∈ a, JsonLexer.isDigit x = true) (hc : c = 'e' ∨ c = 'E') (hd : d ≠ [])
    (halld : ∀ x ∈ d, JsonLexer.isDigit x = true) :
    numShapeWith JsonLexer.isDigit (a ++ c :: d) = true := by
  have hcd : headNot JsonLexer.isDigit (c :: d) := by
    rcases hc with rfl | rfl <;> exact rfl
  rcases hc with rfl | rfl
  · unfold numShapeWith
    rw [digitRun_concat hall ha hcd]
    show (match digitRun JsonLexer.isDigit d with
          | none => false
          | some r3 => r3.length == 0) = true
    rw [digitRun_all halld hd]
    rfl
  · unfold numShapeWith
    rw [digitRun_concat hall ha hcd]
    show (match digitRun JsonLexer.isDigit d with
          | none => false
          | some r3 => r3.length == 0) = true
    rw [digitRun_all halld hd]
    rfl

theorem shape_DFE {a t d : List Char} {c : Char} (ha : a ≠ [])
    (hall : ∀ x ∈ a, JsonLexer.isDigit x = true) (ht : t ≠ [])
    (hallt : ∀ x ∈ t, JsonLexer.isDigit x = true) (hc : c = 'e' ∨ c = 'E') (hd : d ≠ [])
    (halld : ∀ x ∈ d, JsonLexer.isDigit x = true) :
    numShapeWith JsonLexer.isDigit (a ++ '.' :: (t ++ c :: d)) = true := by
  have hcd : headNot JsonLexer.isDigit (c :: d) := by
    rcases hc with rfl | rfl <;> exact rfl
  rcases hc with rfl | rfl
  · unfold numShapeWith
    rw [digitRun_concat hall ha (by exact rfl)]
    show (match digitRun JsonLexer.isDigit (t ++ 'e' :: d) with
          | none => false
          | some r2 => numShapeTail2 JsonLexer.isDigit r2) = true
    rw [digitRun_concat hallt ht hcd]
    show (match digitRun JsonLexer.isDigit d with
          | none => false
          | some r3 => r3.length == 0) = true
    rw [digitRun_all halld hd]
    rfl
  · unfold numShapeWith
    rw [digitRun_concat hall ha (by exact rfl)]
    show (match digitRun JsonLexer.isDigit (t ++ 'E' :: d) with
          | none => false
          | some r2 => numShapeTail2 JsonLexer.isDigit r2) = true
    rw [digitRun_concat hallt ht hcd]
    show (match digitRun JsonLexer.isDigit d with
          | none => false
          | some r3 => r3.length == 0) = true
    rw [digitRun_all halld hd]
    rfl

theorem readNumber_lexeme_shape (c0 : Char) (r : List Char)
    (h : JsonLexer.isDigit c0 = true) :
    actualNumberLexeme ((JsonLexer.readNumber c0 r).1.lexeme) = true := by
  have hx0 : JsonLexer.isDigit '\x00' = false := by decide
  unfold actualNumberLexeme
  show numShapeWith JsonLexer.isDigit
    (c0 :: (r.takeWhile JsonLexer.isDigit ++
      (JsonLexer.numFracPart (r.drop (r.takeWhile JsonLexer.isDigit).length)).1 ++
      (JsonLexer.numExpoPart
        (JsonLexer.numFracPart (r.drop (r.takeWhile JsonLexer.isDigit).length)).2).1 ++
      (JsonLexer.numExpoPart
        (JsonLexer.numFracPart (r.drop (r.takeWhile JsonLexer.isDigit).length)).2).2.takeWhile
        JsonLexer.isDigit)) = true
  have hall1 : ∀ x ∈ c0 :: r.takeWhile JsonLexer.isDigit, JsonLexer.isDigit x = true := by
    intro x hx
    rcases List.mem_cons.1 hx with rfl | hx
    · exact h
    · exact List.mem_takeWhile_imp hx
  have hne1 : c0 :: r.takeWhile JsonLexer.isDigit ≠ [] := List.cons_ne_nil _ _
  have hn1 : headNot JsonLexer.isDigit
      (r.drop (r.takeWhile JsonLexer.isDigit).length) := headNot_drop_takeWhile _ _
  obtain ⟨hn2, hfr⟩ := numFracPart_spec _ hn1
  obtain ⟨hex1, hex2⟩ | ⟨c, hc, hex1, hex2⟩ := numExpoPart_spec
    (JsonLexer.numFracPart (r.drop (r.takeWhile JsonLexer.isDigit).length)).2
  · -- no exponent: the trailing run is empty
    have hd4 : (JsonLexer.numExpoPart
        (JsonLexer.numFracPart (r.drop (r.takeWhile JsonLexer.isDigit).length)).2).2.takeWhile
        JsonLexer.isDigit = [] := by
      rw [hex2]
      exact takeWhile_eq_nil_of_headNot hn2
    rcases hfr with ⟨hf1, _⟩ | ⟨t, ht, hallt, hf1⟩
    · rw [hf1, hex1, hd4]
      simp only [List.append_nil]
      exact shape_D hne1 hall1
    · rw [hf1, hex1, hd4]
      have : c0 :: (r.takeWhile JsonLexer.isDigit ++ '.' :: t ++ [] ++ []) =
          (c0 :: r.takeWhile JsonLexer.isDigit) ++ '.' :: t := by
        simp
      rw [this]
      exact shape_DF hne1 hall1 ht hallt
  · -- exponent marker present, followed by a nonempty digit run
    have hd4ne : (JsonLexer.numExpoPart
        (JsonLexer.numFracPart (r.drop (r.takeWhile JsonLexer.isDigit).length)).2).2.takeWhile
        JsonLexer.isDigit ≠ [] := takeWhile_ne_nil_of_head hex2 hx0
    have hd4all : ∀ x ∈ (JsonLexer.numExpoPart
        (JsonLexer.numFracPart (r.drop (r.takeWhile JsonLexer.isDigit).length)).2).2.takeWhile
        JsonLexer.isDigit, JsonLexer.isDigit x = true := by
      intro x hx
      exact List.mem_takeWhile_imp hx
    rcases hfr with ⟨hf1, _⟩ | ⟨t, ht, hallt, hf1⟩
    · rw [hf1, hex1]
      have : c0 :: (r.takeWhile JsonLexer.isDigit ++ [] ++ [c] ++
          (JsonLexer.numExpoPart
            (JsonLexer.numFracPart (r.drop (r.takeWhile JsonLexer.isDigit).length)).2).2.takeWhile
            JsonLexer.isDigit) =
          (c0 :: r.takeWhile JsonLexer.isDigit) ++ c ::
          (JsonLexer.numExpoPart
            (JsonLexer.numFracPart (r.drop (r.takeWhile JsonLexer.isDigit).length)).2).2.takeWhile
            JsonLexer.isDigit := by
        simp
      rw [this]
      exact shape_DE hne1 hall1 hc hd4ne hd4all
    · rw [hf1, hex1]
      have : c0 :: (r.takeWhile JsonLexer.isDigit ++ '.' :: t ++ [c] ++
          (JsonLexer.numExpoPart
            (JsonLexer.numFracPart (r.drop (r.takeWhile JsonLexer.isDigit).length)).2).2.takeWhile
            JsonLexer.isDigit) =
          (c0 :: r.takeWhile JsonLexer.isDigit) ++ '.' :: (t ++ c ::
          (JsonLexer.numExpoPart
            (JsonLexer.numFracPart (r.drop (r.takeWhile JsonLexer.isDigit).length)).2).2.takeWhile
            JsonLexer.isDigit) := by
        simp
      rw [this]
      exact shape_DFE hne1 hall1 ht hallt hc hd4ne hd4all

theorem readTrueLiteral_tokenType {c0 : Char} {r : List Char} {tk : Token} {rest : List Char}
    (h : JsonLexer.readTrueLiteral c0 r = .ok (tk, rest)) : tk.tokenType = .TRUE_LITERAL := by
  unfold JsonLexer.readTrueLiteral at h
  dsimp only at h
  split at h
  · exact absurd h (by simp)
  · split at h
    · exact absurd h (by simp)
    · split at h
      · exact absurd h (by simp)
      · cases h
        rfl

theorem readFalseLiteral_tokenType {c0 : Char} {r : List Char} {tk : Token} {rest : List Char}
    (h : JsonLexer.readFalseLiteral c0 r = .ok (tk, rest)) : tk.tokenType = .FALSE_LITERAL := by
  unfold JsonLexer.readFalseLiteral at h
  dsimp only at h
  split at h
  · exact absurd h (by simp)
  · split at h
    · exact absurd h (by simp)
    · split at h
      · exact absurd h (by simp)
      · split at h
        · exact absurd h (by simp)
        · cases h
          rfl

theorem readNullLiteral_tokenType {c0 : Char} {r : List Char} {tk : Token} {rest : List Char}
    (h : JsonLexer.readNullLiteral c0 r = .ok (tk, rest)) : tk.tokenType = .NULL_LITERAL := by
  unfold JsonLexer.readNullLiteral at h
  dsimp only at h
  split at h
  · exact absurd h (by simp)
  · split at h
    · exact absurd h (by simp)
    · split at h
      · exact absurd h (by simp)
      · cases h
        rfl

/-- A cons produced by one lexer step followed by the recursive scan:
if the head token is not a NUMBER whose lexeme is of the right shape, the
obligation passes to the tail. -/
theorem mapCons_number {n : Nat} {tok : Token} {rest : List Char} {toks : List Token}
    (ih : ∀ src toks, JsonLexer.scanTokensF n src = .ok toks →
        ∀ tk ∈ toks, tk.tokenType = .NUMBER → actualNumberLexeme tk.lexeme = true)
    (h : ((tok :: ·) <$> JsonLexer.scanTokensF n rest) = .ok toks)
    (htok : tok.tokenType = .NUMBER → actualNumberLexeme tok.lexeme = true) :
    ∀ tk ∈ toks, tk.tokenType = .NUMBER → actualNumberLexeme tk.lexeme = true := by
  cases hrec : JsonLexer.scanTokensF n rest with
  | error e =>
    rw [hrec] at h
    replace h : (Except.error e : Except JsonLexer.LexError (List Token)) = .ok toks := h
    exact absurd h (by simp)
  | ok ts2 =>
    rw [hrec] at h
    replace h : (Except.ok (tok :: ts2) : Except JsonLexer.LexError (List Token)) = .ok toks := h
    cases h
    intro tk htk htt
    rcases List.mem_cons.1 htk with rfl | htk
    · exact htok htt
    · exact ih _ _ hrec tk htk htt

/-- Every NUMBER token any scan produces has a lexeme of the actual
grammar shape. -/
theorem scanTokensF_number_lexemes : ∀ (fuel : Nat) (src : List Char) (toks : List Token),
    JsonLexer.scanTokensF fuel src = .ok toks →
    ∀ tk ∈ toks, tk.tokenType = .NUMBER → actualNumberLexeme tk.lexeme = true := by
  intro fuel
  induction fuel with
  | zero =>
    intro src toks h
    simp [JsonLexer.scanTokensF] at h
  | succ n ih =>
    intro src toks h tk htk htt
    cases src with
    | nil =>
      simp only [JsonLexer.scanTokensF] at h
      cases h
      rcases List.mem_singleton.1 htk with rfl
      exact absurd htt (by decide)
    | cons c r =>
      simp only [JsonLexer.scanTokensF] at h
      split at h
      all_goals try exact mapCons_number ih h (fun hh => absurd hh (by decide)) tk htk htt
      all_goals try exact ih _ _ h tk htk htt
      all_goals try
        (split at h
         · exact absurd h (by simp)
         · first
             | exact mapCons_number ih h (fun hh => absurd hh (by decide)) tk htk htt
             | (rename_i tkx rrest heq
                refine mapCons_number ih h (fun hh => ?_) tk htk htt
                first
                  | rw [readTrueLiteral_tokenType heq] at hh
                  | rw [readFalseLiteral_tokenType heq] at hh
                  | rw [readNullLiteral_tokenType heq] at hh
                exact absurd hh (by decide)))
      all_goals try
        (split at h
         · refine mapCons_number ih h (fun _ => readNumber_lexeme_shape _ r ?_) tk htk htt
           assumption
         · exact absurd h (by simp))
      all_goals
        (rcases hrs : JsonLexer.readStringLoop r false [] with e | ⟨sres, rrest⟩
         · rw [hrs] at h
           replace h : (Except.error e : Except JsonLexer.LexError (List Token)) = .ok toks := h
           exact absurd h (by simp)
         · rw [hrs] at h
           replace h : ((JsonLexer.stringToken sres :: ·) <$>
               JsonLexer.scanTokensF n rrest) = .ok toks := h
           exact mapCons_number ih h (fun hh => by
             simp [JsonLexer.stringToken] at hh) tk htk htt)

/-- C9 counterexample: lexing the text 1-2 yields a single NUMBER token
whose lexeme is 1-2 (with literal value 1), although the claim's grammar
does not accept a minus sign in a non-leading position. -/
theorem claim_C9_counterexample :
    JsonLexer.scanTokens ['1', '-', '2'] =
      .ok [{ tokenType := .NUMBER, lexeme := ['1', '-', '2'], literal := .num (mkRat 1 1) },
           JsonLexer.eofToken] ∧
    specNumberLexeme ['1', '-', '2'] = false :=
  ⟨rfl, rfl⟩

/-- C9 amended: NUMBER lexemes follow the grammar over the lexer's digit
class, which also contains the minus sign: one or more digit-or-minus
characters, an optional dot followed by such characters, an optional
exponent marker followed by such characters.  In particular a minus in any
position is accepted as a digit, and an exponent minus sign is accepted,
while an exponent plus sign still is not. -/
theorem claim_C9_number_lexemes :
    (∀ (src : List Char) (toks : List Token), JsonLexer.scanTokens src = .ok toks →
        ∀ tk ∈ toks, tk.tokenType = .NUMBER → actualNumberLexeme tk.lexeme = true) ∧
    JsonLexer.scanTokens ['1', 'e', '-', '5'] =
      .ok [{ tokenType := .NUMBER, lexeme := ['1', 'e', '-', '5'],
             literal := .num (mkRat 1 100000) }, JsonLexer.eofToken] ∧
    JsonLexer.scanTokens ['1', 'e', '+', '5'] = .error .unexpectedCharacter := by
  refine ⟨?_, rfl, rfl⟩
  intro src toks h
  exact scanTokensF_number_lexemes _ _ _ h

theorem claim_C9_number_lexemes_witness :
    actualNumberLexeme ['1', '-', '2'] = true :=
  claim_C9_number_lexemes.1 ['1', '-', '2']
    [{ tokenType := .NUMBER, lexeme := ['1', '-', '2'], literal := .num (mkRat 1 1) },
     JsonLexer.eofToken] rfl
    { tokenType := .NUMBER, lexeme := ['1', '-', '2'], literal := .num (mkRat 1 1) }
    (List.mem_cons_self _ _) rfl


theorem digitsToNat_foldl_gen :
    ∀ (b : List Char) (A : Nat),
      List.foldl (fun a c => a * 10 + (c.toNat - 48)) A b =
        A * 10 ^ b.length + List.foldl (fun a c => a * 10 + (c.toNat - 48)) 0 b := by
  intro b
  induction b with
  | nil => intro A; simp
  | cons c r ih =>
    intro A
    simp only [List.foldl_cons, List.length_cons]
    rw [ih (A * 10 + (c.toNat - 48)), ih (0 * 10 + (c.toNat - 48))]
    ring

theorem digitsToNat_append (a b : List Char) :
    JsonLexer.digitsToNat (a ++ b) =
      JsonLexer.digitsToNat a * 10 ^ b.length + JsonLexer.digitsToNat b := by
  unfold JsonLexer.digitsToNat
  rw [List.foldl_append]
  exact digitsToNat_foldl_gen b _

theorem digitChar_isDigit {d : Nat} (h : d < 10) :
    Char.isDigit (Char.ofNat (48 + d)) = true := by
  interval_cases d <;> decide

theorem digitChar_toNat {d : Nat} (h : d < 10) : (Char.ofNat (48 + d)).toNat - 48 = d := by
  interval_cases d <;> decide

theorem natDigitsF_all_digits : ∀ (f n : Nat), ∀ c ∈ natDigitsF f n, Char.isDigit c = true := by
  intro f
  induction f with
  | zero => intro n c hc; simp [natDigitsF] at hc
  | succ f ih =>
    intro n c hc
    match n, hc with
    | 0, hc => simp [natDigitsF] at hc
    | (k + 1), hc =>
      rw [show natDigitsF (f + 1) (k + 1) =
          natDigitsF f ((k + 1) / 10) ++ [Char.ofNat (48 + (k + 1) % 10)] from rfl] at hc
      rcases List.mem_append.1 hc with hc | hc
      · exact ih _ _ hc
      · rcases List.mem_singleton.1 hc with rfl
        exact digitChar_isDigit (Nat.mod_lt _ (by omega))

theorem natDigitsF_value : ∀ (f n : Nat), n ≤ f →
    JsonLexer.digitsToNat (natDigitsF f n) = n := by
  intro f
  induction f with
  | zero =>
    intro n h
    interval_cases n
    rfl
  | succ f ih =>
    intro n h
    match n with
    | 0 => rfl
    | (k + 1) =>
      rw [show natDigitsF (f + 1) (k + 1) =
          natDigitsF f ((k + 1) / 10) ++ [Char.ofNat (48 + (k + 1) % 10)] from rfl]
      rw [digitsToNat_append]
      have hd : (k + 1) / 10 ≤ f := by omega
      rw [ih _ hd]
      have hm : (k + 1) % 10 < 10 := Nat.mod_lt _ (by omega)
      have : JsonLexer.digitsToNat [Char.ofNat (48 + (k + 1) % 10)] = (k + 1) % 10 := by
        unfold JsonLexer.digitsToNat
        simp only [List.foldl_cons, List.foldl_nil]
        rw [show (0 : Nat) * 10 + ((Char.ofNat (48 + (k + 1) % 10)).toNat - 48) =
            (Char.ofNat (48 + (k + 1) % 10)).toNat - 48 by ring]
        exact digitChar_toNat hm
      rw [this]
      simp only [List.length_cons, List.length_nil, pow_one, pow_zero]
      omega

theorem natDigitsF_length : ∀ (f n j : Nat), n ≤ f → n < 10 ^ j →
    (natDigitsF f n).length ≤ j := by
  intro f
  induction f with
  | zero =>
    intro n j h _
    interval_cases n
    simp [natDigitsF]
  | succ f ih =>
    intro n j h hj
    match n with
    | 0 => simp [natDigitsF]
    | (k + 1) =>
      rw [show natDigitsF (f + 1) (k + 1) =
          natDigitsF f ((k + 1) / 10) ++ [Char.ofNat (48 + (k + 1) % 10)] from rfl]
      rw [List.length_append]
      have hj1 : 1 ≤ j := by
        by_contra hc
        push_neg at hc
        interval_cases j
        omega
      have : (k + 1) / 10 < 10 ^ (j - 1) := by
        have h10 : 10 ^ j = 10 ^ (j - 1) * 10 := by
          conv_lhs => rw [show j = (j - 1) + 1 by omega]
          rw [pow_succ]
        omega
      have := ih ((k + 1) / 10) (j - 1) (by omega) this
      simp only [List.length_cons, List.length_nil]
      omega

theorem natToChars_all_digits (n : Nat) : ∀ c ∈ natToChars n, Char.isDigit c = true := by
  unfold natToChars
  split
  · intro c hc
    rcases List.mem_singleton.1 hc with rfl
    decide
  · exact natDigitsF_all_digits n n

theorem natToChars_value (n : Nat) : JsonLexer.digitsToNat (natToChars n) = n := by
  unfold natToChars
  split
  · rename_i h
    subst h
    rfl
  · exact natDigitsF_value n n le_rfl

theorem natToChars_ne_nil (n : Nat) : natToChars n ≠ [] := by
  unfold natToChars
  split
  · simp
  · rename_i h
    match n, h with
    | (k + 1), _ =>
      rw [show natDigitsF (k + 1) (k + 1) =
          natDigitsF k ((k + 1) / 10) ++ [Char.ofNat (48 + (k + 1) % 10)] from rfl]
      simp

theorem natToChars_length_le (n j : Nat) (h : n < 10 ^ j) (hj : 1 ≤ j) :
    (natToChars n).length ≤ j := by
  unfold natToChars
  split
  · simpa using hj
  · exact natDigitsF_length n n j le_rfl h

theorem digitsToNat_replicate_zero (j : Nat) :
    JsonLexer.digitsToNat (List.replicate j '0') = 0 := by
  induction j with
  | zero => rfl
  | succ j ih =>
    unfold JsonLexer.digitsToNat at *
    rw [List.replicate_succ, List.foldl_cons]
    simpa using ih

theorem padSix_all_digits (k : Nat) : ∀ c ∈ padSix k, Char.isDigit c = true := by
  intro c hc
  unfold padSix at hc
  rcases List.mem_append.1 hc with hc | hc
  · rcases List.eq_of_mem_replicate hc with rfl
    decide
  · exact natToChars_all_digits k c hc

theorem padSix_value (k : Nat) : JsonLexer.digitsToNat (padSix k) = k := by
  unfold padSix
  rw [digitsToNat_append, digitsToNat_replicate_zero, natToChars_value]
  ring

theorem padSix_length (k : Nat) (h : k < 1000000) : (padSix k).length = 6 := by
  unfold padSix
  have := natToChars_length_le k 6 (by norm_num; omega) (by norm_num)
  rw [List.length_append, List.length_replicate]
  omega

theorem takeWhile_all_append (p : Char → Bool) (I t : List Char)
    (h : ∀ c ∈ I, p c = true) : (I ++ t).takeWhile p = I ++ t.takeWhile p := by
  induction I with
  | nil => simp
  | cons c r ih =>
    simp only [List.cons_append, List.takeWhile_cons]
    rw [h c (List.mem_cons_self c r)]
    simp only [ite_true]
    rw [ih (fun x hx => h x (List.mem_cons_of_mem c hx))]

theorem takeWhile_all (p : Char → Bool) (I : List Char)
    (h : ∀ c ∈ I, p c = true) : I.takeWhile p = I := by
  have := takeWhile_all_append p I [] h
  simpa using this

theorem takeWhile_dot (t : List Char) : ('.' :: t).takeWhile Char.isDigit = [] := by
  simp [List.takeWhile_cons]

theorem atof_frac_form (c : Char) (I' F : List Char)
    (hc : c.isDigit = true)
    (hI : ∀ x ∈ I', x.isDigit = true)
    (hF : ∀ x ∈ F, x.isDigit = true) :
    JsonLexer.atof (c :: (I' ++ '.' :: F)) =
      mkRat ((JsonLexer.digitsToNat (c :: I') * 10 ^ F.length +
        JsonLexer.digitsToNat F : Nat) : Int) (10 ^ F.length) := by
  have h1 : ¬((c :: (I' ++ '.' :: F)).head? = some '-') := by
    simp only [List.head?_cons, Option.some.injEq]
    intro h
    subst h
    exact absurd hc (by decide)
  have h2 : ¬((c :: (I' ++ '.' :: F)).head? = some '+') := by
    simp only [List.head?_cons, Option.some.injEq]
    intro h
    subst h
    exact absurd hc (by decide)
  have hip : List.takeWhile Char.isDigit (c :: (I' ++ '.' :: F)) = c :: I' := by
    rw [List.takeWhile_cons, hc]
    simp only [ite_true]
    rw [takeWhile_all_append Char.isDigit I' ('.' :: F) hI, takeWhile_dot,
      List.append_nil]
  unfold JsonLexer.atof
  dsimp only
  rw [if_neg h1, if_neg h2, hip]
  rw [show (c :: I').length = I'.length + 1 from rfl]
  rw [show List.drop (I'.length + 1) (c :: (I' ++ '.' :: F)) =
      List.drop I'.length (I' ++ '.' :: F) from rfl]
  rw [List.drop_left' rfl]
  simp only [List.head?_cons, List.tail_cons, if_true]
  rw [takeWhile_all Char.isDigit F hF, List.drop_length]
  simp only [List.head?_nil, List.tail_nil]
  rw [if_neg (by simp)]
  rw [if_neg (by simp)]
  show mkRat (1 * ((JsonLexer.digitsToNat (c :: I') * 10 ^ F.length +
      JsonLexer.digitsToNat F : Nat) : Int) * (10 : Int) ^ (JsonLexer.digitsToNat [])) (10 ^ F.length) = _
  norm_num [JsonLexer.digitsToNat]

theorem atof_neg_frac_form (c : Char) (I' F : List Char)
    (hc : c.isDigit = true)
    (hI : ∀ x ∈ I', x.isDigit = true)
    (hF : ∀ x ∈ F, x.isDigit = true) :
    JsonLexer.atof ('-' :: (c :: (I' ++ '.' :: F))) =
      mkRat (-((JsonLexer.digitsToNat (c :: I') * 10 ^ F.length +
        JsonLexer.digitsToNat F : Nat) : Int)) (10 ^ F.length) := by
  have hip : List.takeWhile Char.isDigit (c :: (I' ++ '.' :: F)) = c :: I' := by
    rw [List.takeWhile_cons, hc]
    simp only [ite_true]
    rw [takeWhile_all_append Char.isDigit I' ('.' :: F) hI, takeWhile_dot,
      List.append_nil]
  unfold JsonLexer.atof
  dsimp only
  simp only [List.head?_cons, List.tail_cons, Option.some.injEq, if_true]
  rw [hip]
  rw [show (c :: I').length = I'.length + 1 from rfl]
  rw [show List.drop (I'.length + 1) (c :: (I' ++ '.' :: F)) =
      List.drop I'.length (I' ++ '.' :: F) from rfl]
  rw [List.drop_left' rfl]
  simp only [List.head?_cons, List.tail_cons, if_true]
  rw [takeWhile_all Char.isDigit F hF, List.drop_length]
  simp only [List.head?_nil, List.tail_nil]
  rw [if_neg (by simp)]
  rw [if_neg (by simp)]
  show mkRat (-1 * ((JsonLexer.digitsToNat (c :: I') * 10 ^ F.length +
      JsonLexer.digitsToNat F : Nat) : Int) * (10 : Int) ^ (JsonLexer.digitsToNat [])) (10 ^ F.length) = _
  norm_num [JsonLexer.digitsToNat]

theorem atof_fmt6 (q : Rat) : JsonLexer.atof (fmt6 q) = round6 q := by
  unfold fmt6 round6
  dsimp only
  set m : Nat := (q.num.natAbs * 2000000 + q.den) / (2 * q.den) with hm
  obtain ⟨c, I', hI⟩ : ∃ c I', natToChars (m / 1000000) = c :: I' := by
    rcases h : natToChars (m / 1000000) with _ | ⟨c, I'⟩
    · exact absurd h (natToChars_ne_nil _)
    · exact ⟨c, I', rfl⟩
  have hcdig : c.isDigit = true := natToChars_all_digits _ c (hI ▸ List.mem_cons_self c I')
  have hI'dig : ∀ x ∈ I', x.isDigit = true :=
    fun x hx => natToChars_all_digits _ x (hI ▸ List.mem_cons_of_mem c hx)
  have hFdig : ∀ x ∈ padSix (m % 1000000), x.isDigit = true := padSix_all_digits _
  have hFlen : (padSix (m % 1000000)).length = 6 := padSix_length _ (Nat.mod_lt _ (by norm_num))
  have hIval : JsonLexer.digitsToNat (c :: I') = m / 1000000 := by
    rw [← hI]; exact natToChars_value _
  have hFval : JsonLexer.digitsToNat (padSix (m % 1000000)) = m % 1000000 := padSix_value _
  have harith : m / 1000000 * 10 ^ 6 + m % 1000000 = m := by
    have := Nat.div_add_mod m 1000000
    norm_num
    omega
  rw [hI]
  by_cases hneg : q.num < 0
  · rw [if_pos hneg, if_pos hneg]
    simp only [List.cons_append, List.nil_append]
    rw [atof_neg_frac_form c I' _ hcdig hI'dig hFdig, hIval, hFval, hFlen, harith]
    norm_num
  · rw [if_neg hneg, if_neg hneg]
    simp only [List.cons_append, List.nil_append]
    rw [atof_frac_form c I' _ hcdig hI'dig hFdig, hIval, hFval, hFlen, harith]
    norm_num

theorem char_digit_cases (c : Char) (hc : c.isDigit = true) :
    c = '0' ∨ c = '1' ∨ c = '2' ∨ c = '3' ∨ c = '4' ∨
    c = '5' ∨ c = '6' ∨ c = '7' ∨ c = '8' ∨ c = '9' := by
  simp only [Char.isDigit, Bool.and_eq_true, decide_eq_true_eq] at hc
  obtain ⟨h1, h2⟩ := hc
  have hv1 : 48 ≤ c.toNat := h1
  have hv2 : c.toNat ≤ 57 := h2
  have hofn : Char.ofNat c.toNat = c := Char.ofNat_toNat c
  set n := c.toNat with hn
  interval_cases n <;> rw [← hofn] <;> simp_all

theorem scanTokensF_digit (c : Char) (hc : c.isDigit = true) (n : Nat) (r : List Char) :
    JsonLexer.scanTokensF (n + 1) (c :: r) =
      ((JsonLexer.readNumber c r).1 :: ·) <$> JsonLexer.scanTokensF n (JsonLexer.readNumber c r).2 := by
  rcases char_digit_cases c hc with rfl | rfl | rfl | rfl | rfl | rfl | rfl | rfl | rfl | rfl <;> rfl

theorem lex_step_lbrace {n : Nat} {rest : List Char} {ts : List Token}
    (h : JsonLexer.scanTokensF n rest = .ok ts) :
    JsonLexer.scanTokensF (n + 1) ('{' :: rest) = .ok (JsonLexer.punct '{' .LBRACE :: ts) := by
  show (JsonLexer.punct '{' .LBRACE :: ·) <$> JsonLexer.scanTokensF n rest = _
  rw [h]; rfl

theorem lex_step_rbrace {n : Nat} {rest : List Char} {ts : List Token}
    (h : JsonLexer.scanTokensF n rest = .ok ts) :
    JsonLexer.scanTokensF (n + 1) ('}' :: rest) = .ok (JsonLexer.punct '}' .RBRACE :: ts) := by
  show (JsonLexer.punct '}' .RBRACE :: ·) <$> JsonLexer.scanTokensF n rest = _
  rw [h]; rfl

theorem lex_step_lbracket {n : Nat} {rest : List Char} {ts : List Token}
    (h : JsonLexer.scanTokensF n rest = .ok ts) :
    JsonLexer.scanTokensF (n + 1) ('[' :: rest) = .ok (JsonLexer.punct '[' .LBRACKET :: ts) := by
  show (JsonLexer.punct '[' .LBRACKET :: ·) <$> JsonLexer.scanTokensF n rest = _
  rw [h]; rfl

theorem lex_step_rbracket {n : Nat} {rest : List Char} {ts : List Token}
    (h : JsonLexer.scanTokensF n rest = .ok ts) :
    JsonLexer.scanTokensF (n + 1) (']' :: rest) = .ok (JsonLexer.punct ']' .RBRACKET :: ts) := by
  show (JsonLexer.punct ']' .RBRACKET :: ·) <$> JsonLexer.scanTokensF n rest = _
  rw [h]; rfl

theorem lex_step_comma {n : Nat} {rest : List Char} {ts : List Token}
    (h : JsonLexer.scanTokensF n rest = .ok ts) :
    JsonLexer.scanTokensF (n + 1) (',' :: rest) = .ok (JsonLexer.punct ',' .COMMA :: ts) := by
  show (JsonLexer.punct ',' .COMMA :: ·) <$> JsonLexer.scanTokensF n rest = _
  rw [h]; rfl

theorem lex_step_colon {n : Nat} {rest : List Char} {ts : List Token}
    (h : JsonLexer.scanTokensF n rest = .ok ts) :
    JsonLexer.scanTokensF (n + 1) (':' :: rest) = .ok (JsonLexer.punct ':' .COLON :: ts) := by
  show (JsonLexer.punct ':' .COLON :: ·) <$> JsonLexer.scanTokensF n rest = _
  rw [h]; rfl

theorem lex_step_space {n : Nat} {rest : List Char} {ts : List Token}
    (h : JsonLexer.scanTokensF n rest = .ok ts) :
    JsonLexer.scanTokensF (n + 1) (' ' :: rest) = .ok ts := h

theorem lex_step_true {n : Nat} {rest : List Char} {ts : List Token}
    (h : JsonLexer.scanTokensF n rest = .ok ts) :
    JsonLexer.scanTokensF (n + 1) ('t' :: 'r' :: 'u' :: 'e' :: rest) =
      .ok ({ tokenType := .TRUE_LITERAL, lexeme := ['t','r','u','e'],
             literal := .bool true } :: ts) := by
  show ({ tokenType := .TRUE_LITERAL, lexeme := ['t','r','u','e'],
          literal := .bool true } :: · : List Token → List Token) <$>
      JsonLexer.scanTokensF n rest = _
  rw [h]; rfl

theorem lex_step_false {n : Nat} {rest : List Char} {ts : List Token}
    (h : JsonLexer.scanTokensF n rest = .ok ts) :
    JsonLexer.scanTokensF (n + 1) ('f' :: 'a' :: 'l' :: 's' :: 'e' :: rest) =
      .ok ({ tokenType := .FALSE_LITERAL, lexeme := ['f','a','l','s','e'],
             literal := .bool false } :: ts) := by
  show ({ tokenType := .FALSE_LITERAL, lexeme := ['f','a','l','s','e'],
          literal := .bool false } :: · : List Token → List Token) <$>
      JsonLexer.scanTokensF n rest = _
  rw [h]; rfl

theorem lex_step_null {n : Nat} {rest : List Char} {ts : List Token}
    (h : JsonLexer.scanTokensF n rest = .ok ts) :
    JsonLexer.scanTokensF (n + 1) ('n' :: 'u' :: 'l' :: 'l' :: rest) =
      .ok ({ tokenType := .NULL_LITERAL, lexeme := ['n','u','l','l'],
             literal := .none } :: ts) := by
  show ({ tokenType := .NULL_LITERAL, lexeme := ['n','u','l','l'],
          literal := .none } :: · : List Token → List Token) <$>
      JsonLexer.scanTokensF n rest = _
  rw [h]; rfl

theorem rawStringOK_split {s : List Char} (h : rawStringOK s = true) :
    rawOKAux false s = true ∧ s.getLast? ≠ some '\\' := by
  unfold rawStringOK at h
  rcases hl : s.getLast? with _ | c
  · rw [hl] at h
    exact ⟨h, by simp⟩
  · rw [hl] at h
    by_cases hc : c = '\\'
    · subst hc
      simp at h
    · refine ⟨?_, by simp [hc]⟩
      revert h
      rcases hc2 : c
      simp_all

theorem readStringLoop_ser :
    ∀ (raw : List Char) (b : Bool) (acc rest : List Char),
      rawOKAux b raw = true →
      ((raw = [] ∧ b = false) ∨ (raw ≠ [] ∧ raw.getLast? ≠ some '\\')) →
      JsonLexer.readStringLoop (raw ++ '"' :: rest) b acc =
        .ok (acc.reverse ++ raw, rest) := by
  intro raw
  induction raw with
  | nil =>
    intro b acc rest _ hside
    rcases hside with ⟨_, rfl⟩ | ⟨hne, _⟩
    · simp [JsonLexer.readStringLoop]
    · exact absurd rfl hne
  | cons c raw' ih =>
    intro b acc rest hok hside
    have hnotq : (c = '"' && !b) = false := by
      unfold rawOKAux at hok
      by_contra hq
      rw [Bool.not_eq_false] at hq
      rw [hq] at hok
      simp at hok
    have hok' : rawOKAux (c = '\\') raw' = true := by
      unfold rawOKAux at hok
      rw [hnotq] at hok
      simpa using hok
    have hlast : raw' ≠ [] → raw'.getLast? ≠ some '\\' := by
      intro hne
      rcases hside with ⟨hnil, _⟩ | ⟨_, hl⟩
      · exact absurd hnil (by simp)
      · rcases raw' with _ | ⟨d, raw''⟩
        · exact absurd rfl hne
        · rwa [List.getLast?_cons_cons] at hl
    show JsonLexer.readStringLoop (c :: (raw' ++ '"' :: rest)) b acc = _
    unfold JsonLexer.readStringLoop
    have hcond : ¬((c = '"' && !b) = true) := by
      rw [hnotq]
      simp
    rw [if_neg hcond]
    by_cases hr : raw' = []
    · subst hr
      have hcne : ¬(c = '\\') := by
        rcases hside with ⟨hnil, _⟩ | ⟨_, hl⟩
        · simp at hnil
        · simp only [List.getLast?_singleton] at hl
          intro hcc
          exact hl (by rw [hcc])
      rw [ih (decide (c = '\\')) (c :: acc) rest hok'
        (Or.inl ⟨rfl, by simp [hcne]⟩)]
      simp
    · rw [ih (decide (c = '\\')) (c :: acc) rest hok' (Or.inr ⟨hr, hlast hr⟩)]
      simp

theorem lex_step_string {n : Nat} {s rest : List Char} {ts : List Token}
    (hwf : rawStringOK s = true)
    (h : JsonLexer.scanTokensF n rest = .ok ts) :
    JsonLexer.scanTokensF (n + 1) ('"' :: (s ++ '"' :: rest)) =
      .ok (JsonLexer.stringToken s :: ts) := by
  obtain ⟨hok, hlast⟩ := rawStringOK_split hwf
  have hloop := readStringLoop_ser s false [] rest hok ?side
  case side =>
    by_cases hs : s = []
    · exact Or.inl ⟨hs, rfl⟩
    · exact Or.inr ⟨hs, hlast⟩
  simp only [JsonLexer.scanTokensF]
  rw [hloop]
  simp only [List.reverse_nil, List.nil_append]
  rw [h]
  rfl

theorem numSafe_nil : numSafe [] := by
  refine ⟨?_, by simp, by simp⟩
  exact (by decide : JsonLexer.isDigit '\x00' = false)

theorem numSafe_comma (r : List Char) : numSafe (',' :: r) := by
  refine ⟨?_, by simp, by simp⟩
  exact (by decide : JsonLexer.isDigit ',' = false)

theorem numSafe_space (r : List Char) : numSafe (' ' :: r) := by
  refine ⟨?_, by simp, by simp⟩
  exact (by decide : JsonLexer.isDigit ' ' = false)

theorem takeWhile_isDigit_numSafe {rest : List Char} (h : numSafe rest) :
    rest.takeWhile JsonLexer.isDigit = [] := by
  rcases rest with _ | ⟨c, r⟩
  · rfl
  · rw [List.takeWhile_cons]
    have hc : JsonLexer.isDigit c = false := h.1
    rw [hc]
    simp

theorem plainDigit_isDigit {c : Char} (h : c.isDigit = true) :
    JsonLexer.isDigit c = true := by
  unfold JsonLexer.isDigit
  rw [h]
  simp

theorem readNumber_decimal (c0 : Char) (I F rest : List Char)
    (hI : ∀ x ∈ I, x.isDigit = true)
    (hF : ∀ x ∈ F, x.isDigit = true)
    (hFne : F ≠ [])
    (hsafe : numSafe rest) :
    JsonLexer.readNumber c0 (I ++ '.' :: (F ++ rest)) =
      ({ tokenType := .NUMBER, lexeme := c0 :: (I ++ '.' :: F),
         literal := .num (JsonLexer.atof (c0 :: (I ++ '.' :: F))) }, rest) := by
  have hIw : ∀ x ∈ I, JsonLexer.isDigit x = true :=
    fun x hx => plainDigit_isDigit (hI x hx)
  have hFw : ∀ x ∈ F, JsonLexer.isDigit x = true :=
    fun x hx => plainDigit_isDigit (hF x hx)
  have hdot : JsonLexer.isDigit '.' = false := by decide
  have hd1 : (I ++ '.' :: (F ++ rest)).takeWhile JsonLexer.isDigit = I := by
    rw [takeWhile_all_append JsonLexer.isDigit I _ hIw, List.takeWhile_cons, hdot]
    simp
  have hdrop1 : (I ++ '.' :: (F ++ rest)).drop I.length = '.' :: (F ++ rest) :=
    List.drop_left I _
  obtain ⟨f0, F', rfl⟩ : ∃ f0 F', F = f0 :: F' := by
    rcases F with _ | ⟨f0, F'⟩
    · exact absurd rfl hFne
    · exact ⟨f0, F', rfl⟩
  have hfr : JsonLexer.numFracPart ('.' :: ((f0 :: F') ++ rest)) =
      ('.' :: (f0 :: F'), rest) := by
    unfold JsonLexer.numFracPart
    rw [if_pos]
    · have htw : ((f0 :: F') ++ rest).takeWhile JsonLexer.isDigit = f0 :: F' := by
        rw [takeWhile_all_append JsonLexer.isDigit (f0 :: F') rest hFw,
          takeWhile_isDigit_numSafe hsafe, List.append_nil]
      simp only [List.drop_one, List.tail_cons, htw]
      rw [List.drop_left (f0 :: F') rest]
    · rw [Bool.and_eq_true]
      constructor
      · simp
      · simp only [List.drop_one, List.tail_cons, List.cons_append, List.headD_cons]
        exact hFw f0 (List.mem_cons_self f0 F')
  have hex : JsonLexer.numExpoPart rest = ([], rest) := by
    unfold JsonLexer.numExpoPart
    rw [if_neg]
    intro hcond
    rw [Bool.and_eq_true, Bool.or_eq_true] at hcond
    obtain ⟨h1 | h1, _⟩ := hcond
    · exact hsafe.2.1 (by simpa using h1)
    · exact hsafe.2.2 (by simpa using h1)
  unfold JsonLexer.readNumber
  dsimp only
  rw [hd1, hdrop1, hfr, hex]
  rw [takeWhile_isDigit_numSafe hsafe]
  simp

theorem padSix_ne_nil (k : Nat) (h : k < 1000000) : padSix k ≠ [] := by
  have := padSix_length k h
  intro hnil
  rw [hnil] at this
  simp at this

theorem lex_step_number {n : Nat} {q : Rat} {rest : List Char} {ts : List Token}
    (hsafe : numSafe rest)
    (h : JsonLexer.scanTokensF n rest = .ok ts) :
    JsonLexer.scanTokensF (n + 1) (fmt6 q ++ rest) =
      .ok ({ tokenType := .NUMBER, lexeme := fmt6 q,
             literal := .num (round6 q) } :: ts) := by
  have hfq : fmt6 q = (if q.num < 0 then ['-'] else []) ++
      natToChars (((q.num.natAbs * 2000000 + q.den) / (2 * q.den)) / 1000000) ++
      '.' :: padSix (((q.num.natAbs * 2000000 + q.den) / (2 * q.den)) % 1000000) := rfl
  generalize hMM : (q.num.natAbs * 2000000 + q.den) / (2 * q.den) = M at hfq
  obtain ⟨c, I', hI⟩ : ∃ c I', natToChars (M / 1000000) = c :: I' := by
    rcases hx : natToChars (M / 1000000) with _ | ⟨c, I'⟩
    · exact absurd hx (natToChars_ne_nil _)
    · exact ⟨c, I', rfl⟩
  rw [hI] at hfq
  have hcdig : c.isDigit = true := natToChars_all_digits _ c (hI ▸ List.mem_cons_self c I')
  have hI'dig : ∀ x ∈ I', x.isDigit = true :=
    fun x hx => natToChars_all_digits _ x (hI ▸ List.mem_cons_of_mem c hx)
  have hFdig : ∀ x ∈ padSix (M % 1000000), x.isDigit = true := padSix_all_digits _
  have hFne : padSix (M % 1000000) ≠ [] := padSix_ne_nil _ (Nat.mod_lt _ (by norm_num))
  have hIdig2 : ∀ x ∈ c :: I', x.isDigit = true := by
    intro x hx
    rcases List.mem_cons.1 hx with rfl | hx
    · exact hcdig
    · exact hI'dig x hx
  by_cases hneg : q.num < 0
  · rw [if_pos hneg] at hfq
    have hfq2 : fmt6 q = '-' :: (c :: I' ++ '.' :: padSix (M % 1000000)) := by
      rw [hfq]; simp
    rw [hfq2]
    have hpre : ('-' :: (c :: I' ++ '.' :: padSix (M % 1000000))) ++ rest =
        '-' :: (c :: I' ++ '.' :: (padSix (M % 1000000) ++ rest)) := by
      simp
    rw [hpre]
    have hstep : JsonLexer.scanTokensF (n+1)
        ('-' :: (c :: I' ++ '.' :: (padSix (M % 1000000) ++ rest))) =
        ((JsonLexer.readNumber '-' (c :: I' ++ '.' :: (padSix (M % 1000000) ++ rest))).1 :: ·) <$>
          JsonLexer.scanTokensF n
            (JsonLexer.readNumber '-' (c :: I' ++ '.' :: (padSix (M % 1000000) ++ rest))).2 := rfl
    rw [hstep]
    have hrn := readNumber_decimal '-' (c :: I') (padSix (M % 1000000)) rest hIdig2 hFdig hFne hsafe
    rw [hrn, h]
    rw [← hfq2, atof_fmt6]
    rfl
  · rw [if_neg hneg] at hfq
    have hfq2 : fmt6 q = c :: I' ++ '.' :: padSix (M % 1000000) := by
      rw [hfq]; simp
    rw [hfq2]
    have hpre : (c :: I' ++ '.' :: padSix (M % 1000000)) ++ rest =
        c :: (I' ++ '.' :: (padSix (M % 1000000) ++ rest)) := by
      simp
    rw [hpre]
    rw [scanTokensF_digit c hcdig n _]
    have hrn := readNumber_decimal c I' (padSix (M % 1000000)) rest hI'dig hFdig hFne hsafe
    rw [hrn, h]
    rw [show c :: (I' ++ '.' :: padSix (M % 1000000)) = fmt6 q by rw [hfq2]; simp,
      atof_fmt6, ← hfq2]
    rfl

theorem lex_ser_main : ∀ N : Nat,
    (∀ t, lexSteps t < N → LS t) ∧
    (∀ es, entriesSteps es < N → LSE es) ∧
    (∀ vs, elemsSteps vs < N → LSV vs) := by
  intro N
  induction N with
  | zero => exact ⟨fun t h => absurd h (by omega), fun es h => absurd h (by omega),
      fun vs h => absurd h (by omega)⟩
  | succ N ih =>
    obtain ⟨ihT, ihE, ihV⟩ := ih
    refine ⟨?_, ?_, ?_⟩
    · intro t hsz
      cases t with
      | jStr s =>
        intro hwf _ rest n ts _ h
        have hkey : rawStringOK s = true := hwf
        have h6 := lex_step_string hkey h
        rw [show lexSteps (JElem.jStr s) + n = n + 1 by simp [lexSteps]; omega]
        simpa [ToStringC, tokensOfElem] using h6
      | jNum q =>
        intro _ _ rest n ts hsafe h
        have h6 := lex_step_number (q := q) hsafe h
        rw [show lexSteps (JElem.jNum q) + n = n + 1 by simp [lexSteps]; omega]
        simpa [ToStringC, tokensOfElem] using h6
      | jBool b =>
        intro _ _ rest n ts _ h
        cases b with
        | true =>
          have h6 := lex_step_true h
          rw [show lexSteps (JElem.jBool true) + n = n + 1 by simp [lexSteps]; omega]
          simpa [ToStringC, tokensOfElem] using h6
        | false =>
          have h6 := lex_step_false h
          rw [show lexSteps (JElem.jBool false) + n = n + 1 by simp [lexSteps]; omega]
          simpa [ToStringC, tokensOfElem] using h6
      | jNull =>
        intro _ _ rest n ts _ h
        have h6 := lex_step_null h
        rw [show lexSteps JElem.jNull + n = n + 1 by simp [lexSteps]; omega]
        simpa [ToStringC, tokensOfElem] using h6
      | jObj es =>
        intro hwf hne rest n ts _ h
        have hwf' : wfStringsEntries es = true := hwf
        have hne2 : noEmptyEntries es = true := by
          have := hne
          simp only [noEmpty, Bool.and_eq_true] at this
          exact this.2
        have hesne : es ≠ [] := by
          have := hne
          simp only [noEmpty, Bool.and_eq_true, decide_eq_true_eq] at this
          intro hnil
          rw [hnil] at this
          simp at this
        have hES : entriesSteps es < N := by
          have : lexSteps (JElem.jObj es) = 2 + entriesSteps es := by simp [lexSteps]
          omega
        have hrec := ihE es hES hwf' hne2 hesne rest n ts h
        have h1 := lex_step_space hrec
        have h2 := lex_step_lbrace h1
        rw [show lexSteps (JElem.jObj es) + n = entriesSteps es + n + 1 + 1 by
          simp [lexSteps]; omega]
        simpa [ToStringC, tokensOfElem] using h2
      | jArr vs =>
        intro hwf hne rest n ts _ h
        have hwf' : wfStringsElems vs = true := hwf
        have hne2 : noEmptyElems vs = true := by
          have := hne
          simp only [noEmpty, Bool.and_eq_true] at this
          exact this.2
        have hvsne : vs ≠ [] := by
          have := hne
          simp only [noEmpty, Bool.and_eq_true, decide_eq_true_eq] at this
          intro hnil
          rw [hnil] at this
          simp at this
        have hES : elemsSteps vs < N := by
          have : lexSteps (JElem.jArr vs) = 2 + elemsSteps vs := by simp [lexSteps]
          omega
        have hrec := ihV vs hES hwf' hne2 hvsne rest n ts h
        have h1 := lex_step_space hrec
        have h2 := lex_step_lbracket h1
        rw [show lexSteps (JElem.jArr vs) + n = elemsSteps vs + n + 1 + 1 by
          simp [lexSteps]; omega]
        simpa [ToStringC, tokensOfElem] using h2
    · intro es hsz
      cases es with
      | nil => intro _ _ hne; exact absurd rfl hne
      | cons kv es' =>
        obtain ⟨k, v⟩ := kv
        intro hwf hne _ rest n ts h
        simp only [wfStringsEntries, Bool.and_eq_true] at hwf
        obtain ⟨⟨hkey, hwfv⟩, hwfrest⟩ := hwf
        simp only [noEmptyEntries, Bool.and_eq_true] at hne
        obtain ⟨hnev, hnerest⟩ := hne
        have hLSv : lexSteps v < N := by
          have : entriesSteps ((k, v) :: es') = 5 + lexSteps v + entriesSteps es' := by
            simp [entriesSteps]
          omega
        cases es' with
        | nil =>
          have h1 := lex_step_rbrace h
          have h2 := lex_step_space h1
          have h3 := ihT v hLSv hwfv hnev (' ' :: '}' :: rest) (n + 1 + 1)
            (JsonLexer.punct '}' .RBRACE :: ts) (numSafe_space _) h2
          have h4 := lex_step_space h3
          have h5 := lex_step_colon h4
          have h6 := lex_step_string hkey h5
          rw [show entriesSteps [(k, v)] + n = lexSteps v + (n + 1 + 1) + 1 + 1 + 1 by
            simp [entriesSteps]; omega]
          simpa [serObjEntries, tokensOfEntries] using h6
        | cons e2 es'' =>
          have hES : entriesSteps (e2 :: es'') < N := by
            have : entriesSteps ((k, v) :: e2 :: es'') =
                5 + lexSteps v + entriesSteps (e2 :: es'') := by
              simp [entriesSteps]
            omega
          have hrec := ihE (e2 :: es'') hES hwfrest hnerest (by simp) rest n ts h
          have h1 := lex_step_space hrec
          have h2 := lex_step_comma h1
          have h3 := ihT v hLSv hwfv hnev
            (',' :: ' ' :: (serObjEntries (e2 :: es'') ++ rest))
            (entriesSteps (e2 :: es'') + n + 1 + 1)
            (JsonLexer.punct ',' .COMMA ::
              (tokensOfEntries (e2 :: es'') ++ JsonLexer.punct '}' .RBRACE :: ts))
            (numSafe_comma _) h2
          have h4 := lex_step_space h3
          have h5 := lex_step_colon h4
          have h6 := lex_step_string hkey h5
          rw [show entriesSteps ((k, v) :: e2 :: es'') + n =
              lexSteps v + (entriesSteps (e2 :: es'') + n + 1 + 1) + 1 + 1 + 1 by
            simp [entriesSteps]; omega]
          simpa [serObjEntries, tokensOfEntries] using h6
    · intro vs hsz
      cases vs with
      | nil => intro _ _ hne; exact absurd rfl hne
      | cons v vs' =>
        intro hwf hne _ rest n ts h
        simp only [wfStringsElems, Bool.and_eq_true] at hwf
        obtain ⟨hwfv, hwfrest⟩ := hwf
        simp only [noEmptyElems, Bool.and_eq_true] at hne
        obtain ⟨hnev, hnerest⟩ := hne
        have hLSv : lexSteps v < N := by
          have : elemsSteps (v :: vs') = 2 + lexSteps v + elemsSteps vs' := by
            simp [elemsSteps]
          omega
        cases vs' with
        | nil =>
          have h1 := lex_step_rbracket h
          have h2 := lex_step_space h1
          have h3 := ihT v hLSv hwfv hnev (' ' :: ']' :: rest) (n + 1 + 1)
            (JsonLexer.punct ']' .RBRACKET :: ts) (numSafe_space _) h2
          rw [show elemsSteps [v] + n = lexSteps v + (n + 1 + 1) by
            simp [elemsSteps]; omega]
          simpa [serArrElems, tokensOfElems] using h3
        | cons e2 es'' =>
          have hES : elemsSteps (e2 :: es'') < N := by
            have : elemsSteps (v :: e2 :: es'') =
                2 + lexSteps v + elemsSteps (e2 :: es'') := by
              simp [elemsSteps]
            omega
          have hrec := ihV (e2 :: es'') hES hwfrest hnerest (by simp) rest n ts h
          have h1 := lex_step_space hrec
          have h2 := lex_step_comma h1
          have h3 := ihT v hLSv hwfv hnev
            (',' :: ' ' :: (serArrElems (e2 :: es'') ++ rest))
            (elemsSteps (e2 :: es'') + n + 1 + 1)
            (JsonLexer.punct ',' .COMMA ::
              (tokensOfElems (e2 :: es'') ++ JsonLexer.punct ']' .RBRACKET :: ts))
            (numSafe_comma _) h2
          rw [show elemsSteps (v :: e2 :: es'') + n =
              lexSteps v + (elemsSteps (e2 :: es'') + n + 1 + 1) by
            simp [elemsSteps]; omega]
          simpa [serArrElems, tokensOfElems] using h3

theorem scanTokensF_mono : ∀ (n : Nat) (src : List Char) (ts : List Token),
    JsonLexer.scanTokensF n src = .ok ts →
    JsonLexer.scanTokensF (n + 1) src = .ok ts := by
  intro n
  induction n with
  | zero =>
    intro src ts h
    exact absurd h (by simp [JsonLexer.scanTokensF])
  | succ n ihn =>
    intro src ts h
    cases src with
    | nil => exact h
    | cons c r =>
      have key : ∀ (g : List Token → List Token) (x : List Char) (ts0 : List Token),
          g <$> JsonLexer.scanTokensF n x = .ok ts0 →
          g <$> JsonLexer.scanTokensF (n + 1) x = .ok ts0 := by
        intro g x ts0 hg
        cases hx : JsonLexer.scanTokensF n x with
        | error e =>
          rw [hx] at hg
          exact absurd hg (by simp [Except.map])
        | ok ts1 =>
          rw [hx] at hg
          rw [ihn x ts1 hx]
          exact hg
      simp only [JsonLexer.scanTokensF] at h ⊢
      split at h
      all_goals first
        | exact key _ _ _ h
        | exact ihn _ _ h
        | (split at h
           · exact absurd h (by simp)
           · exact key _ _ _ h)
        | (split at h
           · rename_i hdig
             rw [if_pos hdig]
             exact key _ _ _ h
           · exact absurd h (by simp))

theorem scanTokensF_mono_le {n m : Nat} {src : List Char} {ts : List Token}
    (hnm : n ≤ m) (h : JsonLexer.scanTokensF n src = .ok ts) :
    JsonLexer.scanTokensF m src = .ok ts := by
  induction m with
  | zero =>
    have : n = 0 := by omega
    subst this
    exact h
  | succ m ihm =>
    by_cases heq : n = m + 1
    · subst heq
      exact h
    · exact scanTokensF_mono m src ts (ihm (by omega))

theorem lexSteps_le_length : ∀ N : Nat,
    (∀ t, lexSteps t < N → lexSteps t ≤ (ToStringC t).length) ∧
    (∀ es, entriesSteps es < N → entriesSteps es ≤ (serObjEntries es).length) ∧
    (∀ vs, elemsSteps vs < N → elemsSteps vs ≤ (serArrElems vs).length) := by
  intro N
  induction N with
  | zero => exact ⟨fun t h => absurd h (by omega), fun es h => absurd h (by omega),
      fun vs h => absurd h (by omega)⟩
  | succ N ih =>
    obtain ⟨ihT, ihE, ihV⟩ := ih
    refine ⟨?_, ?_, ?_⟩
    · intro t hsz
      cases t with
      | jStr s => simp [lexSteps, ToStringC]
      | jNum q =>
        have : fmt6 q ≠ [] := by
          have hfq : fmt6 q = (if q.num < 0 then ['-'] else []) ++
              natToChars (((q.num.natAbs * 2000000 + q.den) / (2 * q.den)) / 1000000) ++
              '.' :: padSix (((q.num.natAbs * 2000000 + q.den) / (2 * q.den)) % 1000000) := rfl
          rw [hfq]
          intro hnil
          rcases List.append_eq_nil.1 hnil with ⟨h1, h2⟩
          rcases List.append_eq_nil.1 h1 with ⟨_, h3⟩
          exact natToChars_ne_nil _ h3
        have : (fmt6 q).length ≥ 1 := by
          rcases hx : fmt6 q with _ | ⟨a, b⟩
          · exact absurd hx this
          · simp
        simp only [lexSteps, ToStringC]
        omega
      | jBool b => cases b <;> simp [lexSteps, ToStringC]
      | jNull => simp [lexSteps, ToStringC]
      | jObj es =>
        have hlt : entriesSteps es < N := by
          have : lexSteps (JElem.jObj es) = 2 + entriesSteps es := by simp [lexSteps]
          omega
        have := ihE es hlt
        simp only [lexSteps, ToStringC, List.length_cons]
        omega
      | jArr vs =>
        have hlt : elemsSteps vs < N := by
          have : lexSteps (JElem.jArr vs) = 2 + elemsSteps vs := by simp [lexSteps]
          omega
        have := ihV vs hlt
        simp only [lexSteps, ToStringC, List.length_cons]
        omega
    · intro es hsz
      cases es with
      | nil => simp [entriesSteps, serObjEntries]
      | cons kv es' =>
        have hv : lexSteps kv.2 < N := by
          have : entriesSteps (kv :: es') = 5 + lexSteps kv.2 + entriesSteps es' := by
            simp [entriesSteps]
          omega
        have hTv := ihT kv.2 hv
        cases es' with
        | nil =>
          simp only [entriesSteps, serObjEntries, List.length_append, List.length_cons]
          simp only [entriesSteps] at *
          omega
        | cons e2 es'' =>
          have hrest : entriesSteps (e2 :: es'') < N := by
            have : entriesSteps (kv :: e2 :: es'') =
                5 + lexSteps kv.2 + entriesSteps (e2 :: es'') := by simp [entriesSteps]
            omega
          have := ihE (e2 :: es'') hrest
          simp only [entriesSteps, serObjEntries, List.length_append, List.length_cons] at *
          omega
    · intro vs hsz
      cases vs with
      | nil => simp [elemsSteps, serArrElems]
      | cons v vs' =>
        have hv : lexSteps v < N := by
          have : elemsSteps (v :: vs') = 2 + lexSteps v + elemsSteps vs' := by
            simp [elemsSteps]
          omega
        have hTv := ihT v hv
        cases vs' with
        | nil =>
          simp only [elemsSteps, serArrElems, List.length_append, List.length_cons] at *
          omega
        | cons e2 es'' =>
          have hrest : elemsSteps (e2 :: es'') < N := by
            have : elemsSteps (v :: e2 :: es'') =
                2 + lexSteps v + elemsSteps (e2 :: es'') := by simp [elemsSteps]
            omega
          have := ihV (e2 :: es'') hrest
          simp only [elemsSteps, serArrElems, List.length_append, List.length_cons] at *
          omega

theorem scanTokens_ser {t : JElem} (hwf : wfStrings t = true) (hne : noEmpty t = true) :
    JsonLexer.scanTokens (ToStringC t) = .ok (tokensOfElem t ++ [JsonLexer.eofToken]) := by
  have hLS := (lex_ser_main (lexSteps t + 1)).1 t (by omega)
  have h0 : JsonLexer.scanTokensF 1 [] = .ok [JsonLexer.eofToken] := rfl
  have h1 := hLS hwf hne [] 1 [JsonLexer.eofToken] numSafe_nil h0
  rw [List.append_nil] at h1
  have hle := (lexSteps_le_length (lexSteps t + 1)).1 t (by omega)
  unfold JsonLexer.scanTokens
  exact scanTokensF_mono_le (by omega) h1

theorem foldEmplace_append :
    ∀ (es : List (List Char × JElem)) (acc : List (List Char × JElem)),
      (∀ kv ∈ es, containsJ acc kv.1 = false) → keysNodup es = true →
      foldEmplace acc es = acc ++ mapRound6Entries es := by
  intro es
  induction es with
  | nil => intro acc _ _; simp [foldEmplace, mapRound6Entries]
  | cons kv rest ih =>
    intro acc hfresh hnd
    simp only [keysNodup, Bool.and_eq_true, Bool.not_eq_true'] at hnd
    obtain ⟨hnokey, hnd'⟩ := hnd
    have hkv : containsJ acc kv.1 = false := hfresh kv (List.mem_cons_self kv rest)
    have hemp : emplace acc kv.1 (mapRound6 kv.2) = acc ++ [(kv.1, mapRound6 kv.2)] := by
      unfold emplace
      rw [show (acc.any (fun kv2 => kv2.1 = kv.1)) = false from hkv]
      simp
    show foldEmplace (emplace acc kv.1 (mapRound6 kv.2)) rest = _
    rw [hemp]
    rw [ih (acc ++ [(kv.1, mapRound6 kv.2)]) ?fresh hnd']
    · simp [mapRound6Entries]
    case fresh =>
      intro kv' hkv'
      unfold containsJ
      rw [List.any_eq_false]
      intro x hx
      rcases List.mem_append.1 hx with hx | hx
      · have := hfresh kv' (List.mem_cons_of_mem kv hkv')
        unfold containsJ at this
        rw [List.any_eq_false] at this
        exact this x hx
      · rcases List.mem_singleton.1 hx with rfl
        simp only [decide_eq_true_eq]
        intro hcontr
        have := List.any_eq_false.1 hnokey kv' hkv'
        simp only [decide_eq_true_eq] at this
        exact this hcontr.symm

theorem foldEmplace_nil {es : List (List Char × JElem)} (hnd : keysNodup es = true) :
    foldEmplace [] es = mapRound6Entries es := by
  have := foldEmplace_append es [] (fun kv _ => rfl) hnd
  simpa using this

theorem obj_iter (n : Nat)
    (ihO : ∀ es acc post, es ≠ [] → keysNodupEntries es = true →
      2 * (tokensOfEntries es).length + 2 ≤ n →
      BeginParseObjectF n (tokensOfEntries es ++ JsonLexer.punct '}' .RBRACE :: post) acc =
        .ok (foldEmplace acc es, post))
    (ihA : ∀ vs acc post, keysNodupElems vs = true →
      2 * (tokensOfElems vs).length + 2 ≤ n →
      BeginParseArrayF n (tokensOfElems vs ++ JsonLexer.punct ']' .RBRACKET :: post) acc =
        .ok (acc ++ mapRound6Elems vs, post))
    (k : List Char) (v : JElem) (acc : List (List Char × JElem)) (X : List Token)
    (hnodup : keysNodupAll v = true)
    (hbound : 2 * (tokensOfElem v).length ≤ n) :
    BeginParseObjectF (n + 1)
      (JsonLexer.stringToken k :: JsonLexer.punct ':' .COLON :: (tokensOfElem v ++ X)) acc =
      (match X with
       | [] => .ok (emplace acc k (mapRound6 v), [])
       | sep :: rest =>
         if sep.tokenType = .COMMA then BeginParseObjectF n rest (emplace acc k (mapRound6 v))
         else if sep.tokenType = .RBRACE then .ok (emplace acc k (mapRound6 v), rest)
         else BeginParseObjectF n (sep :: rest) (emplace acc k (mapRound6 v))) := by
  cases v with
  | jStr s => rfl
  | jNum q => rfl
  | jBool b => cases b <;> rfl
  | jNull => rfl
  | jObj es2 =>
    have hnest : BeginParseObjectF n
        (tokensOfEntries es2 ++ JsonLexer.punct '}' .RBRACE :: X) [] =
        .ok (mapRound6Entries es2, X) := by
      rcases es2 with _ | ⟨e1, es3⟩
      · obtain ⟨n', rfl⟩ : ∃ n', n = n' + 1 := by
          refine ⟨n - 1, ?_⟩
          simp only [tokensOfElem, List.length_append, List.length_cons] at hbound
          omega
        rfl
      · simp only [keysNodupAll, Bool.and_eq_true] at hnodup
        rw [ihO (e1 :: es3) [] X (by simp) hnodup.2 ?bnd]
        · rw [foldEmplace_nil hnodup.1]
        case bnd =>
          simp only [tokensOfElem, List.length_append, List.length_cons] at hbound
          omega
    have harg : tokensOfElem (JElem.jObj es2) ++ X =
        JsonLexer.punct '{' .LBRACE :: (tokensOfEntries es2 ++
          JsonLexer.punct '}' .RBRACE :: X) := by
      simp [tokensOfElem]
    rw [harg]
    have hstep : BeginParseObjectF (n + 1)
        (JsonLexer.stringToken k :: JsonLexer.punct ':' .COLON ::
          JsonLexer.punct '{' .LBRACE :: (tokensOfEntries es2 ++
            JsonLexer.punct '}' .RBRACE :: X)) acc =
        (match (BeginParseObjectF n (tokensOfEntries es2 ++
            JsonLexer.punct '}' .RBRACE :: X) []).map (fun p => (JElem.jObj p.1, p.2)) with
         | .error e => .error e
         | .ok (elem, ts4) =>
           match ts4 with
           | [] => .ok (emplace acc k elem, [])
           | sep :: rest =>
             if sep.tokenType = .COMMA then BeginParseObjectF n rest (emplace acc k elem)
             else if sep.tokenType = .RBRACE then .ok (emplace acc k elem, rest)
             else BeginParseObjectF n (sep :: rest) (emplace acc k elem)) := rfl
    rw [hstep, hnest]
    rfl
  | jArr vs2 =>
    have hnest : BeginParseArrayF n
        (tokensOfElems vs2 ++ JsonLexer.punct ']' .RBRACKET :: X) [] =
        .ok (mapRound6Elems vs2, X) := by
      have hnd2 : keysNodupElems vs2 = true := hnodup
      rw [ihA vs2 [] X hnd2 ?bnd]
      · rw [List.nil_append]
      case bnd =>
        simp only [tokensOfElem, List.length_append, List.length_cons] at hbound
        omega
    have harg : tokensOfElem (JElem.jArr vs2) ++ X =
        JsonLexer.punct '[' .LBRACKET :: (tokensOfElems vs2 ++
          JsonLexer.punct ']' .RBRACKET :: X) := by
      simp [tokensOfElem]
    rw [harg]
    have hstep : BeginParseObjectF (n + 1)
        (JsonLexer.stringToken k :: JsonLexer.punct ':' .COLON ::
          JsonLexer.punct '[' .LBRACKET :: (tokensOfElems vs2 ++
            JsonLexer.punct ']' .RBRACKET :: X)) acc =
        (match (BeginParseArrayF n (tokensOfElems vs2 ++
            JsonLexer.punct ']' .RBRACKET :: X) []).map (fun p => (JElem.jArr p.1, p.2)) with
         | .error e => .error e
         | .ok (elem, ts4) =>
           match ts4 with
           | [] => .ok (emplace acc k elem, [])
           | sep :: rest =>
             if sep.tokenType = .COMMA then BeginParseObjectF n rest (emplace acc k elem)
             else if sep.tokenType = .RBRACE then .ok (emplace acc k elem, rest)
             else BeginParseObjectF n (sep :: rest) (emplace acc k elem)) := rfl
    rw [hstep, hnest]
    rfl

theorem arr_iter (n : Nat)
    (ihO : ∀ es acc post, es ≠ [] → keysNodupEntries es = true →
      2 * (tokensOfEntries es).length + 2 ≤ n →
      BeginParseObjectF n (tokensOfEntries es ++ JsonLexer.punct '}' .RBRACE :: post) acc =
        .ok (foldEmplace acc es, post))
    (ihA : ∀ vs acc post, keysNodupElems vs = true →
      2 * (tokensOfElems vs).length + 2 ≤ n →
      BeginParseArrayF n (tokensOfElems vs ++ JsonLexer.punct ']' .RBRACKET :: post) acc =
        .ok (acc ++ mapRound6Elems vs, post))
    (v : JElem) (acc : List JElem) (X : List Token)
    (hnodup : keysNodupAll v = true)
    (hbound : 2 * (tokensOfElem v).length ≤ n) :
    BeginParseArrayF (n + 1) (tokensOfElem v ++ X) acc =
      (match X with
       | [] => .ok (acc ++ [mapRound6 v], [])
       | sep :: rest =>
         if sep.tokenType = .COMMA then BeginParseArrayF n rest (acc ++ [mapRound6 v])
         else if sep.tokenType = .RBRACKET then .ok (acc ++ [mapRound6 v], rest)
         else BeginParseArrayF n (sep :: rest) (acc ++ [mapRound6 v])) := by
  cases v with
  | jStr s => rfl
  | jNum q => rfl
  | jBool b => cases b <;> rfl
  | jNull => rfl
  | jObj es2 =>
    have hnest : BeginParseObjectF n
        (tokensOfEntries es2 ++ JsonLexer.punct '}' .RBRACE :: X) [] =
        .ok (mapRound6Entries es2, X) := by
      rcases es2 with _ | ⟨e1, es3⟩
      · obtain ⟨n', rfl⟩ : ∃ n', n = n' + 1 := by
          refine ⟨n - 1, ?_⟩
          simp only [tokensOfElem, List.length_append, List.length_cons] at hbound
          omega
        rfl
      · simp only [keysNodupAll, Bool.and_eq_true] at hnodup
        rw [ihO (e1 :: es3) [] X (by simp) hnodup.2 ?bnd]
        · rw [foldEmplace_nil hnodup.1]
        case bnd =>
          simp only [tokensOfElem, List.length_append, List.length_cons] at hbound
          omega
    have harg : tokensOfElem (JElem.jObj es2) ++ X =
        JsonLexer.punct '{' .LBRACE :: (tokensOfEntries es2 ++
          JsonLexer.punct '}' .RBRACE :: X) := by
      simp [tokensOfElem]
    rw [harg]
    have hstep : BeginParseArrayF (n + 1)
        (JsonLexer.punct '{' .LBRACE :: (tokensOfEntries es2 ++
            JsonLexer.punct '}' .RBRACE :: X)) acc =
        (match (BeginParseObjectF n (tokensOfEntries es2 ++
            JsonLexer.punct '}' .RBRACE :: X) []).map (fun p => (JElem.jObj p.1, p.2)) with
         | .error e => .error e
         | .ok (elem, ts2) =>
           match ts2 with
           | [] => .ok (acc ++ [elem], [])
           | sep :: rest =>
             if sep.tokenType = .COMMA then BeginParseArrayF n rest (acc ++ [elem])
             else if sep.tokenType = .RBRACKET then .ok (acc ++ [elem], rest)
             else BeginParseArrayF n (sep :: rest) (acc ++ [elem])) := rfl
    rw [hstep, hnest]
    rfl
  | jArr vs2 =>
    have hnest : BeginParseArrayF n
        (tokensOfElems vs2 ++ JsonLexer.punct ']' .RBRACKET :: X) [] =
        .ok (mapRound6Elems vs2, X) := by
      have hnd2 : keysNodupElems vs2 = true := hnodup
      rw [ihA vs2 [] X hnd2 ?bnd]
      · rw [List.nil_append]
      case bnd =>
        simp only [tokensOfElem, List.length_append, List.length_cons] at hbound
        omega
    have harg : tokensOfElem (JElem.jArr vs2) ++ X =
        JsonLexer.punct '[' .LBRACKET :: (tokensOfElems vs2 ++
          JsonLexer.punct ']' .RBRACKET :: X) := by
      simp [tokensOfElem]
    rw [harg]
    have hstep : BeginParseArrayF (n + 1)
        (JsonLexer.punct '[' .LBRACKET :: (tokensOfElems vs2 ++
            JsonLexer.punct ']' .RBRACKET :: X)) acc =
        (match (BeginParseArrayF n (tokensOfElems vs2 ++
            JsonLexer.punct ']' .RBRACKET :: X) []).map (fun p => (JElem.jArr p.1, p.2)) with
         | .error e => .error e
         | .ok (elem, ts2) =>
           match ts2 with
           | [] => .ok (acc ++ [elem], [])
           | sep :: rest =>
             if sep.tokenType = .COMMA then BeginParseArrayF n rest (acc ++ [elem])
             else if sep.tokenType = .RBRACKET then .ok (acc ++ [elem], rest)
             else BeginParseArrayF n (sep :: rest) (acc ++ [elem])) := rfl
    rw [hstep, hnest]
    rfl

theorem rt_parse_loops : ∀ n, RTObj n ∧ RTArr n := by
  intro n
  induction n with
  | zero =>
    constructor
    · intro es acc post _ _ hb
      omega
    · intro vs acc post _ hb
      omega
  | succ n ih =>
    obtain ⟨ihO', ihA'⟩ := ih
    have ihO := ihO'
    have ihA := ihA'
    unfold RTObj at ihO
    unfold RTArr at ihA
    constructor
    · intro es acc post hne hnd hb
      rcases es with _ | ⟨⟨k, v⟩, es'⟩
      · exact absurd rfl hne
      · simp only [keysNodupEntries, Bool.and_eq_true] at hnd
        obtain ⟨hndv, hndrest⟩ := hnd
        rcases es' with _ | ⟨e2, es''⟩
        · have harg : tokensOfEntries [(k, v)] ++ JsonLexer.punct '}' .RBRACE :: post =
              JsonLexer.stringToken k :: JsonLexer.punct ':' .COLON ::
                (tokensOfElem v ++ (JsonLexer.punct '}' .RBRACE :: post)) := by
            simp [tokensOfEntries]
          rw [harg]
          rw [obj_iter n ihO ihA k v acc (JsonLexer.punct '}' .RBRACE :: post) hndv ?bnd1]
          · rfl
          case bnd1 =>
            simp only [tokensOfEntries, List.length_cons] at hb
            omega
        · have harg : tokensOfEntries ((k, v) :: e2 :: es'') ++
              JsonLexer.punct '}' .RBRACE :: post =
              JsonLexer.stringToken k :: JsonLexer.punct ':' .COLON ::
                (tokensOfElem v ++ (JsonLexer.punct ',' .COMMA ::
                  (tokensOfEntries (e2 :: es'') ++ JsonLexer.punct '}' .RBRACE :: post))) := by
            simp [tokensOfEntries]
          rw [harg]
          rw [obj_iter n ihO ihA k v acc (JsonLexer.punct ',' .COMMA ::
            (tokensOfEntries (e2 :: es'') ++ JsonLexer.punct '}' .RBRACE :: post)) hndv ?bnd2]
          · have hrec := ihO (e2 :: es'') (emplace acc k (mapRound6 v)) post
              (by simp) hndrest ?bnd3
            · exact hrec
            case bnd3 =>
              simp only [tokensOfEntries, List.length_cons, List.length_append] at hb ⊢
              omega
          case bnd2 =>
            simp only [tokensOfEntries, List.length_cons, List.length_append] at hb
            omega
    · intro vs acc post hnd hb
      rcases vs with _ | ⟨v, vs'⟩
      · have hstep : BeginParseArrayF (n + 1)
            (tokensOfElems [] ++ JsonLexer.punct ']' .RBRACKET :: post) acc =
            .ok (acc, post) := rfl
        rw [hstep]
        simp [mapRound6Elems]
      · simp only [keysNodupElems, Bool.and_eq_true] at hnd
        obtain ⟨hndv, hndrest⟩ := hnd
        rcases vs' with _ | ⟨e2, vs''⟩
        · have harg : tokensOfElems [v] ++ JsonLexer.punct ']' .RBRACKET :: post =
              tokensOfElem v ++ (JsonLexer.punct ']' .RBRACKET :: post) := by
            simp [tokensOfElems]
          rw [harg]
          rw [arr_iter n ihO ihA v acc (JsonLexer.punct ']' .RBRACKET :: post) hndv ?bnd4]
          · rfl
          case bnd4 =>
            simp only [tokensOfElems] at hb
            omega
        · have harg : tokensOfElems (v :: e2 :: vs'') ++
              JsonLexer.punct ']' .RBRACKET :: post =
              tokensOfElem v ++ (JsonLexer.punct ',' .COMMA ::
                (tokensOfElems (e2 :: vs'') ++ JsonLexer.punct ']' .RBRACKET :: post)) := by
            simp [tokensOfElems]
          rw [harg]
          rw [arr_iter n ihO ihA v acc (JsonLexer.punct ',' .COMMA ::
            (tokensOfElems (e2 :: vs'') ++ JsonLexer.punct ']' .RBRACKET :: post)) hndv ?bnd5]
          · have hrec := ihA (e2 :: vs'') (acc ++ [mapRound6 v]) post hndrest ?bnd6
            · show BeginParseArrayF n (tokensOfElems (e2 :: vs'') ++
                JsonLexer.punct ']' .RBRACKET :: post) (acc ++ [mapRound6 v]) = _
              rw [hrec]
              simp [mapRound6Elems]
            case bnd6 =>
              simp only [tokensOfElems, List.length_cons, List.length_append] at hb ⊢
              omega
          case bnd5 =>
            simp only [tokensOfElems, List.length_cons, List.length_append] at hb
            omega

theorem round6_close (q : Rat) : |q - round6 q| ≤ mkRat 1 2000000 := by
  unfold round6
  dsimp only
  have hden : (0 : Nat) < q.den := q.den_pos
  have hdiv := Nat.div_add_mod (q.num.natAbs * 2000000 + q.den) (2 * q.den)
  have hmodlt : (q.num.natAbs * 2000000 + q.den) % (2 * q.den) < 2 * q.den :=
    Nat.mod_lt _ (by omega)
  set m : Nat := (q.num.natAbs * 2000000 + q.den) / (2 * q.den) with hm
  set r : Nat := (q.num.natAbs * 2000000 + q.den) % (2 * q.den) with hr
  set s : Int := (if q.num < 0 then -(m : Int) else (m : Int)) with hs
  have hub : 2 * (q.num * 1000000 - s * q.den) ≤ (q.den : Int) := by
    rw [hs]
    by_cases hneg : q.num < 0
    · rw [if_pos hneg]
      have habs : q.num = -(q.num.natAbs : Int) := by omega
      rw [habs]
      push_cast
      nlinarith [hdiv, hmodlt]
    · rw [if_neg hneg]
      have habs : q.num = (q.num.natAbs : Int) := by omega
      rw [habs]
      push_cast
      nlinarith [hdiv, hmodlt]
  have hlb : -(q.den : Int) ≤ 2 * (q.num * 1000000 - s * q.den) := by
    rw [hs]
    by_cases hneg : q.num < 0
    · rw [if_pos hneg]
      have habs : q.num = -(q.num.natAbs : Int) := by omega
      rw [habs]
      push_cast
      nlinarith [hdiv, hmodlt]
    · rw [if_neg hneg]
      have habs : q.num = (q.num.natAbs : Int) := by omega
      rw [habs]
      push_cast
      nlinarith [hdiv, hmodlt]
  have hdenQ : ((q.den : ℚ)) ≠ 0 := by
    have : (0 : ℚ) < (q.den : ℚ) := by exact_mod_cast hden
    exact ne_of_gt this
  rw [Rat.mkRat_eq_div, Rat.mkRat_eq_div]
  rw [show (q : ℚ) = (q.num : ℚ) / (q.den : ℚ) from (Rat.num_div_den q).symm]
  push_cast
  rw [div_sub_div _ _ hdenQ (by norm_num : ((1000000 : ℚ)) ≠ 0)]
  rw [abs_div]
  rw [abs_of_pos (show (0 : ℚ) < (q.den : ℚ) * 1000000 by positivity)]
  rw [div_le_div_iff₀ (by positivity) (by norm_num : (0 : ℚ) < 2000000)]
  have hubQ : ((2 * (q.num * 1000000 - s * q.den) : Int) : ℚ) ≤ ((q.den : Int) : ℚ) :=
    Int.cast_le.2 hub
  have hlbQ : ((-(q.den : Int) : Int) : ℚ) ≤ ((2 * (q.num * 1000000 - s * q.den) : Int) : ℚ) :=
    Int.cast_le.2 hlb
  push_cast at hubQ hlbQ
  have habs2 : |(q.num : ℚ) * 1000000 - (q.den : ℚ) * (s : ℚ)| * 2 ≤ (q.den : ℚ) := by
    rcases abs_cases ((q.num : ℚ) * 1000000 - (q.den : ℚ) * (s : ℚ)) with ⟨heq, _⟩ | ⟨heq, _⟩ <;>
      rw [heq] <;> nlinarith [hubQ, hlbQ]
  nlinarith [habs2]

theorem wfStringsEntries_append_single {m : List (List Char × JElem)}
    {k : List Char} {v : JElem}
    (hm : wfStringsEntries m = true) (hk : rawStringOK k = true)
    (hv : wfStrings v = true) : wfStringsEntries (m ++ [(k, v)]) = true := by
  induction m with
  | nil => simp [wfStringsEntries, hk, hv]
  | cons kv rest ih =>
    simp only [wfStringsEntries, Bool.and_eq_true] at hm ⊢
    exact ⟨hm.1, ih hm.2⟩

theorem wfStringsEntries_emplace {m : List (List Char × JElem)}
    {k : List Char} {v : JElem}
    (hm : wfStringsEntries m = true) (hk : rawStringOK k = true)
    (hv : wfStrings v = true) : wfStringsEntries (emplace m k v) = true := by
  unfold emplace
  split
  · exact hm
  · exact wfStringsEntries_append_single hm hk hv

theorem wfStringsElems_append_single {l : List JElem} {v : JElem}
    (hl : wfStringsElems l = true) (hv : wfStrings v = true) :
    wfStringsElems (l ++ [v]) = true := by
  induction l with
  | nil => simp [wfStringsElems, hv]
  | cons x rest ih =>
    simp only [wfStringsElems, Bool.and_eq_true] at hl ⊢
    exact ⟨hl.1, ih hl.2⟩

theorem objSepCons_wf {n : Nat} {sep : Token} {rest' : List Token}
    {acc : List (List Char × JElem)} {kk : List Char} {vv : JElem}
    {res : List (List Char × JElem)} {rest : List Token}
    (ihobj : ObjWF n)
    (h : (if sep.tokenType = TokenType.COMMA then
            BeginParseObjectF n rest' (emplace acc kk vv)
          else if sep.tokenType = TokenType.RBRACE then
            Except.ok (emplace acc kk vv, rest')
          else BeginParseObjectF n (sep :: rest') (emplace acc kk vv)) = .ok (res, rest))
    (hacc : wfStringsEntries acc = true) (hkk : rawStringOK kk = true)
    (hvv : wfStrings vv = true)
    (hmem : ∀ tk ∈ sep :: rest', tokOK tk) :
    wfStringsEntries res = true ∧ ∀ tk ∈ rest, tokOK tk := by
  have hc := wfStringsEntries_emplace (k := kk) (v := vv) hacc hkk hvv
  split at h
  · exact ihobj _ _ _ _ h (fun tk htk => hmem tk (List.mem_cons_of_mem sep htk)) hc
  · split at h
    · cases h
      exact ⟨hc, fun tk htk => hmem tk (List.mem_cons_of_mem sep htk)⟩
    · exact ihobj _ _ _ _ h hmem hc

theorem arrSepCons_wf {n : Nat} {sep : Token} {rest' : List Token}
    {acc : List JElem} {vv : JElem}
    {res : List JElem} {rest : List Token}
    (iharr : ArrWF n)
    (h : (if sep.tokenType = TokenType.COMMA then
            BeginParseArrayF n rest' (acc ++ [vv])
          else if sep.tokenType = TokenType.RBRACKET then
            Except.ok (acc ++ [vv], rest')
          else BeginParseArrayF n (sep :: rest') (acc ++ [vv])) = .ok (res, rest))
    (hacc : wfStringsElems acc = true)
    (hvv : wfStrings vv = true)
    (hmem : ∀ tk ∈ sep :: rest', tokOK tk) :
    wfStringsElems res = true ∧ ∀ tk ∈ rest, tokOK tk := by
  have hc := wfStringsElems_append_single (v := vv) hacc hvv
  split at h
  · exact iharr _ _ _ _ h (fun tk htk => hmem tk (List.mem_cons_of_mem sep htk)) hc
  · split at h
    · cases h
      exact ⟨hc, fun tk htk => hmem tk (List.mem_cons_of_mem sep htk)⟩
    · exact iharr _ _ _ _ h hmem hc

theorem parseLoops_wf : ∀ n : Nat, ObjWF n ∧ ArrWF n := by
  intro n
  induction n with
  | zero =>
    constructor
    · intro ts acc res rest h
      simp [BeginParseObjectF] at h
    · intro ts acc res rest h
      simp [BeginParseArrayF] at h
  | succ n ih =>
    constructor
    · intro ts acc res rest h hmem hacc
      cases ts with
      | nil =>
        simp only [BeginParseObjectF] at h
        cases h
        exact ⟨hacc, by simp⟩
      | cons key ts1 =>
        simp only [BeginParseObjectF] at h
        split at h
        · split at h
          · exact absurd h (by simp)
          · cases h
            exact ⟨hacc, fun tk htk => hmem tk (List.mem_cons_of_mem key htk)⟩
        · split at h
          · exact absurd h (by simp)
          · split at h
            · exact absurd h (by simp)
            · split at h
              · exact absurd h (by simp)
              · split at h
                · exact absurd h (by simp)
                · split at h
                  all_goals try exact absurd h (by simp)
                  rename_i hkeyRB ts1 delimiter ts2 value ts3 hkeyStr hdelim sub elem ts4 heq
                  have hkOK : rawStringOK (litAsString key.literal) = true :=
                    (hmem key (List.mem_cons_self key _)) (not_not.1 hkeyStr)
                  have hmem3 : ∀ tk ∈ ts3, tokOK tk := fun tk htk => hmem tk (by simp [htk])
                  have hpair : wfStrings elem = true ∧ ∀ tk ∈ ts4, tokOK tk := by
                    split at heq
                    · cases heq
                      rename_i hvt
                      exact ⟨(hmem value (by simp)) hvt, hmem3⟩
                    · cases heq; exact ⟨rfl, hmem3⟩
                    · cases heq; exact ⟨rfl, hmem3⟩
                    · cases heq; exact ⟨rfl, hmem3⟩
                    · cases heq; exact ⟨rfl, hmem3⟩
                    · rcases hsub : BeginParseObjectF n ts3 [] with e | ⟨subres, tsx⟩
                      · rw [hsub] at heq
                        exact absurd heq (by simp [Except.map])
                      · rw [hsub] at heq
                        simp only [Except.map] at heq
                        cases heq
                        exact ih.1 _ _ _ _ hsub hmem3 rfl
                    · rcases hsub : BeginParseArrayF n ts3 [] with e | ⟨subres, tsx⟩
                      · rw [hsub] at heq
                        exact absurd heq (by simp [Except.map])
                      · rw [hsub] at heq
                        simp only [Except.map] at heq
                        cases heq
                        exact ih.2 _ _ _ _ hsub hmem3 rfl
                    · exact absurd heq (by simp)
                  obtain ⟨hvv, hts4⟩ := hpair
                  cases ts4 with
                  | nil =>
                    have hh := Except.ok.inj h
                    rw [Prod.mk.injEq] at hh
                    obtain ⟨hh1, hh2⟩ := hh
                    subst hh1
                    subst hh2
                    exact ⟨wfStringsEntries_emplace hacc hkOK hvv, by simp⟩
                  | cons sep rest' =>
                    exact objSepCons_wf ih.1 h hacc hkOK hvv hts4
    · intro ts acc res rest h hmem hacc
      cases ts with
      | nil =>
        simp only [BeginParseArrayF] at h
        cases h
        exact ⟨hacc, by simp⟩
      | cons value ts1 =>
        have hmem1 : ∀ tk ∈ ts1, tokOK tk :=
          fun tk htk => hmem tk (List.mem_cons_of_mem value htk)
        simp only [BeginParseArrayF] at h
        split at h
        · cases h
          exact ⟨hacc, hmem1⟩
        · split at h
          all_goals try exact absurd h (by simp)
          rename_i sub elem ts2 heq
          have hpair : wfStrings elem = true ∧ ∀ tk ∈ ts2, tokOK tk := by
            split at heq
            · cases heq
              rename_i hvt
              exact ⟨(hmem value (by simp)) hvt, hmem1⟩
            · cases heq; exact ⟨rfl, hmem1⟩
            · cases heq; exact ⟨rfl, hmem1⟩
            · cases heq; exact ⟨rfl, hmem1⟩
            · cases heq; exact ⟨rfl, hmem1⟩
            · rcases hsub : BeginParseObjectF n ts1 [] with e | ⟨subres, tsx⟩
              · rw [hsub] at heq
                exact absurd heq (by simp [Except.map])
              · rw [hsub] at heq
                simp only [Except.map] at heq
                cases heq
                exact ih.1 _ _ _ _ hsub hmem1 rfl
            · rcases hsub : BeginParseArrayF n ts1 [] with e | ⟨subres, tsx⟩
              · rw [hsub] at heq
                exact absurd heq (by simp [Except.map])
              · rw [hsub] at heq
                simp only [Except.map] at heq
                cases heq
                exact ih.2 _ _ _ _ hsub hmem1 rfl
            · exact absurd heq (by simp)
          obtain ⟨hvv, hts2⟩ := hpair
          cases ts2 with
          | nil =>
            have hh := Except.ok.inj h
            rw [Prod.mk.injEq] at hh
            obtain ⟨hh1, hh2⟩ := hh
            subst hh1
            subst hh2
            exact ⟨wfStringsElems_append_single hacc hvv, by simp⟩
          | cons sep rest' =>
            exact arrSepCons_wf ih.2 h hacc hvv hts2

theorem readStringLoop_rawOK :
    ∀ (r : List Char) (b : Bool) (acc s rest : List Char),
      JsonLexer.readStringLoop r b acc = .ok (s, rest) →
      ∃ mid, s = acc.reverse ++ mid ∧ rawOKAux b mid = true ∧
        mid.getLast? ≠ some '\\' ∧ (mid = [] → b = false) := by
  intro r
  induction r with
  | nil =>
    intro b acc s rest h
    exact absurd h (by simp [JsonLexer.readStringLoop])
  | cons c r' ih =>
    intro b acc s rest h
    unfold JsonLexer.readStringLoop at h
    split at h
    · rename_i hcond
      cases h
      rw [Bool.and_eq_true] at hcond
      refine ⟨[], by simp, rfl, by simp, fun _ => ?_⟩
      have := hcond.2
      simp at this
      exact this
    · rename_i hcond
      rcases ih (decide (c = '\\')) (c :: acc) s rest h with ⟨mid, hs, hok, hlast, hnil⟩
      have hcf : (c = '"' && !b) = false := by
        revert hcond
        cases hx : (c = '"' && !b) <;> simp
      refine ⟨c :: mid, ?_, ?_, ?_, by simp⟩
      · rw [hs]
        simp
      · unfold rawOKAux
        rw [hcf]
        simpa using hok
      · rcases hmid : mid with _ | ⟨d, mid'⟩
        · have hb' : decide (c = '\\') = false := hnil hmid
          have hcne : ¬(c = '\\') := of_decide_eq_false hb'
          simp only [List.getLast?_singleton]
          intro hcc
          rw [Option.some.injEq] at hcc
          exact hcne hcc
        · rw [hmid] at hlast
          rw [List.getLast?_cons_cons]
          exact hlast

theorem readStringLoop_rawStringOK {r s rest : List Char}
    (h : JsonLexer.readStringLoop r false [] = .ok (s, rest)) :
    rawStringOK s = true := by
  rcases readStringLoop_rawOK r false [] s rest h with ⟨mid, hs, hok, hlast, _⟩
  simp only [List.reverse_nil, List.nil_append] at hs
  subst hs
  unfold rawStringOK
  split
  · rename_i heq
    exact absurd heq hlast
  · exact hok

/-- Passing the token-shape obligation through one lexer step. -/
theorem mapCons_tokOK {n : Nat} {tok : Token} {rest : List Char} {toks : List Token}
    (ih : ∀ src toks, JsonLexer.scanTokensF n src = .ok toks → ∀ tk ∈ toks, tokOK tk)
    (h : ((tok :: ·) <$> JsonLexer.scanTokensF n rest) = .ok toks)
    (htok : tokOK tok) : ∀ tk ∈ toks, tokOK tk := by
  cases hrec : JsonLexer.scanTokensF n rest with
  | error e =>
    rw [hrec] at h
    replace h : (Except.error e : Except JsonLexer.LexError (List Token)) = .ok toks := h
    exact absurd h (by simp)
  | ok ts2 =>
    rw [hrec] at h
    replace h : (Except.ok (tok :: ts2) : Except JsonLexer.LexError (List Token)) = .ok toks := h
    cases Except.ok.inj h
    intro tk htk
    rcases List.mem_cons.1 htk with rfl | htk
    · exact htok
    · exact ih rest ts2 hrec tk htk

theorem scanTokensF_strings : ∀ (fuel : Nat) (src : List Char) (toks : List Token),
    JsonLexer.scanTokensF fuel src = .ok toks → ∀ tk ∈ toks, tokOK tk := by
  intro fuel
  induction fuel with
  | zero =>
    intro src toks h
    simp [JsonLexer.scanTokensF] at h
  | succ n ih =>
    intro src toks h
    cases src with
    | nil =>
      simp only [JsonLexer.scanTokensF] at h
      cases h
      intro tk htk
      rcases List.mem_singleton.1 htk with rfl
      intro hh
      exact absurd hh (by decide)
    | cons c r =>
      simp only [JsonLexer.scanTokensF] at h
      split at h
      all_goals try exact mapCons_tokOK ih h (fun hh => absurd hh (by decide))
      all_goals try exact ih _ _ h
      all_goals try
        (split at h
         · exact absurd h (by simp)
         · (rename_i tkx rrest heq
            refine mapCons_tokOK ih h (fun hh => ?_)
            first
              | rw [readTrueLiteral_tokenType heq] at hh
              | rw [readFalseLiteral_tokenType heq] at hh
              | rw [readNullLiteral_tokenType heq] at hh
            exact absurd hh (by decide)))
      all_goals try
        (split at h
         · refine mapCons_tokOK ih h (fun hh => ?_)
           have hnum : (JsonLexer.readNumber c r).1.tokenType = TokenType.NUMBER := rfl
           rw [hnum] at hh
           exact absurd hh (by decide)
         · exact absurd h (by simp))
      all_goals
        (rcases hrs : JsonLexer.readStringLoop r false [] with e | ⟨sres, rrest⟩
         · rw [hrs] at h
           replace h : (Except.error e : Except JsonLexer.LexError (List Token)) = .ok toks := h
           exact absurd h (by simp)
         · rw [hrs] at h
           replace h : ((JsonLexer.stringToken sres :: ·) <$>
               JsonLexer.scanTokensF n rrest) = .ok toks := h
           exact mapCons_tokOK ih h (fun _ => readStringLoop_rawStringOK hrs))

theorem treeSim_round_all : ∀ N : Nat,
    (∀ t, lexSteps t < N → treeSim t (mapRound6 t)) ∧
    (∀ es, entriesSteps es < N → treeSimEntries es (mapRound6Entries es)) ∧
    (∀ vs, elemsSteps vs < N → treeSimElems vs (mapRound6Elems vs)) := by
  intro N
  induction N with
  | zero => exact ⟨fun t h => absurd h (by omega), fun es h => absurd h (by omega),
      fun vs h => absurd h (by omega)⟩
  | succ N ih =>
    obtain ⟨ihT, ihE, ihV⟩ := ih
    refine ⟨?_, ?_, ?_⟩
    · intro t hsz
      cases t with
      | jStr s => simp [treeSim, mapRound6]
      | jNum q =>
        show |q - round6 q| ≤ mkRat 1 2000000
        exact round6_close q
      | jBool b => simp [treeSim, mapRound6]
      | jNull => simp [treeSim, mapRound6]
      | jObj es =>
        show treeSimEntries es (mapRound6Entries es)
        refine ihE es ?_
        have : lexSteps (JElem.jObj es) = 2 + entriesSteps es := by simp [lexSteps]
        omega
      | jArr vs =>
        show treeSimElems vs (mapRound6Elems vs)
        refine ihV vs ?_
        have : lexSteps (JElem.jArr vs) = 2 + elemsSteps vs := by simp [lexSteps]
        omega
    · intro es hsz
      cases es with
      | nil => show True; trivial
      | cons kv rest =>
        have h1 : lexSteps kv.2 < N := by
          have : entriesSteps (kv :: rest) = 5 + lexSteps kv.2 + entriesSteps rest := by
            simp [entriesSteps]
          omega
        have h2 : entriesSteps rest < N := by
          have : entriesSteps (kv :: rest) = 5 + lexSteps kv.2 + entriesSteps rest := by
            simp [entriesSteps]
          omega
        exact ⟨rfl, ihT kv.2 h1, ihE rest h2⟩
    · intro vs hsz
      cases vs with
      | nil => show True; trivial
      | cons v rest =>
        have h1 : lexSteps v < N := by
          have : elemsSteps (v :: rest) = 2 + lexSteps v + elemsSteps rest := by
            simp [elemsSteps]
          omega
        have h2 : elemsSteps rest < N := by
          have : elemsSteps (v :: rest) = 2 + lexSteps v + elemsSteps rest := by
            simp [elemsSteps]
          omega
        exact ⟨ihT v h1, ihV rest h2⟩

theorem treeSim_mapRound6 (t : JElem) : treeSim t (mapRound6 t) :=
  (treeSim_round_all (lexSteps t + 1)).1 t (by omega)

theorem Parse_wfStrings {src : List Char} {t : JElem} (h : Parse src = .ok t) :
    wfStrings t = true := by
  unfold Parse at h
  cases hts : JsonLexer.scanTokens src with
  | error e =>
    rw [hts] at h
    exact absurd h (by simp)
  | ok tokens =>
    rw [hts] at h
    replace h : ParseTokens tokens = .ok t := h
    have hmem : ∀ tk ∈ tokens, tokOK tk := scanTokensF_strings _ _ _ hts
    unfold ParseTokens at h
    cases tokens with
    | nil => exact absurd h (by simp)
    | cons t0 ts =>
      replace h : (if t0.tokenType = TokenType.LBRACE then
          (BeginParseObjectF (2 * (t0 :: ts).length + 2) ts []).map (fun p => JElem.jObj p.1)
        else if t0.tokenType = TokenType.LBRACKET then
          (BeginParseArrayF (2 * (t0 :: ts).length + 2) ts []).map (fun p => JElem.jArr p.1)
        else .error .invalidStart) = .ok t := h
      have hmem1 : ∀ tk ∈ ts, tokOK tk := fun tk htk => hmem tk (List.mem_cons_of_mem t0 htk)
      split at h
      · cases hp : BeginParseObjectF (2 * (t0 :: ts).length + 2) ts [] with
        | error e =>
          rw [hp] at h
          exact absurd h (by simp [Except.map])
        | ok p =>
          rw [hp] at h
          simp only [Except.map] at h
          cases h
          exact ((parseLoops_wf _).1 _ _ _ _ hp hmem1 rfl).1
      · split at h
        · cases hp : BeginParseArrayF (2 * (t0 :: ts).length + 2) ts [] with
          | error e =>
            rw [hp] at h
            exact absurd h (by simp [Except.map])
          | ok p =>
            rw [hp] at h
            simp only [Except.map] at h
            cases h
            exact ((parseLoops_wf _).2 _ _ _ _ hp hmem1 rfl).1
        · exact absurd h (by simp)

theorem Parse_shape {src : List Char} {t : JElem} (h : Parse src = .ok t) :
    (∃ es, t = .jObj es) ∨ (∃ vs, t = .jArr vs) := by
  unfold Parse at h
  cases hts : JsonLexer.scanTokens src with
  | error e =>
    rw [hts] at h
    exact absurd h (by simp)
  | ok tokens =>
    rw [hts] at h
    replace h : ParseTokens tokens = .ok t := h
    unfold ParseTokens at h
    cases tokens with
    | nil => exact absurd h (by simp)
    | cons t0 ts =>
      replace h : (if t0.tokenType = TokenType.LBRACE then
          (BeginParseObjectF (2 * (t0 :: ts).length + 2) ts []).map (fun p => JElem.jObj p.1)
        else if t0.tokenType = TokenType.LBRACKET then
          (BeginParseArrayF (2 * (t0 :: ts).length + 2) ts []).map (fun p => JElem.jArr p.1)
        else .error .invalidStart) = .ok t := h
      split at h
      · cases hp : BeginParseObjectF (2 * (t0 :: ts).length + 2) ts [] with
        | error e =>
          rw [hp] at h
          exact absurd h (by simp [Except.map])
        | ok p =>
          rw [hp] at h
          simp only [Except.map] at h
          cases h
          exact Or.inl ⟨p.1, rfl⟩
      · split at h
        · cases hp : BeginParseArrayF (2 * (t0 :: ts).length + 2) ts [] with
          | error e =>
            rw [hp] at h
            exact absurd h (by simp [Except.map])
          | ok p =>
            rw [hp] at h
            simp only [Except.map] at h
            cases h
            exact Or.inr ⟨p.1, rfl⟩
        · exact absurd h (by simp)

theorem roundTrip_of_parse {src : List Char} {t : JElem}
    (hp : Parse src = .ok t) (hne : noEmpty t = true) :
    Parse (ToStringC t) = .ok (mapRound6 t) := by
  have hwf := Parse_wfStrings hp
  have hnd := Parse_keysNodupAll hp
  have hlex := scanTokens_ser hwf hne
  unfold Parse
  rw [hlex]
  show ParseTokens (tokensOfElem t ++ [JsonLexer.eofToken]) = .ok (mapRound6 t)
  rcases Parse_shape hp with ⟨es, rfl⟩ | ⟨vs, rfl⟩
  · simp only [noEmpty, Bool.and_eq_true, decide_eq_true_eq] at hne
    simp only [keysNodupAll, Bool.and_eq_true] at hnd
    have hesne : es ≠ [] := by
      intro hnil
      rw [hnil] at hne
      simp at hne
    have harg : tokensOfElem (JElem.jObj es) ++ [JsonLexer.eofToken] =
        JsonLexer.punct '{' .LBRACE :: (tokensOfEntries es ++
          JsonLexer.punct '}' .RBRACE :: [JsonLexer.eofToken]) := by
      simp [tokensOfElem]
    rw [harg]
    show (BeginParseObjectF
        (2 * (JsonLexer.punct '{' .LBRACE :: (tokensOfEntries es ++
          JsonLexer.punct '}' .RBRACE :: [JsonLexer.eofToken])).length + 2)
        (tokensOfEntries es ++ JsonLexer.punct '}' .RBRACE :: [JsonLexer.eofToken])
        []).map (fun p => JElem.jObj p.1) = .ok (mapRound6 (JElem.jObj es))
    rw [(rt_parse_loops _).1 es [] [JsonLexer.eofToken] hesne hnd.2 ?bnd]
    · simp only [Except.map]
      rw [foldEmplace_nil hnd.1]
      rfl
    case bnd =>
      simp only [List.length_cons, List.length_append]
      omega
  · simp only [noEmpty, Bool.and_eq_true, decide_eq_true_eq] at hne
    have hnd2 : keysNodupElems vs = true := hnd
    have harg : tokensOfElem (JElem.jArr vs) ++ [JsonLexer.eofToken] =
        JsonLexer.punct '[' .LBRACKET :: (tokensOfElems vs ++
          JsonLexer.punct ']' .RBRACKET :: [JsonLexer.eofToken]) := by
      simp [tokensOfElem]
    rw [harg]
    show (BeginParseArrayF
        (2 * (JsonLexer.punct '[' .LBRACKET :: (tokensOfElems vs ++
          JsonLexer.punct ']' .RBRACKET :: [JsonLexer.eofToken])).length + 2)
        (tokensOfElems vs ++ JsonLexer.punct ']' .RBRACKET :: [JsonLexer.eofToken])
        []).map (fun p => JElem.jArr p.1) = .ok (mapRound6 (JElem.jArr vs))
    rw [(rt_parse_loops _).2 vs [] [JsonLexer.eofToken] hnd2 ?bnd2]
    · simp only [Except.map]
      rfl
    case bnd2 =>
      simp only [List.length_cons, List.length_append]
      omega

/-- C4 counterexample: the tree parsed from an empty-object text does not
survive the round trip.  The serializer's member loop never runs for an
empty Object, so the closing brace is never printed and the serialization
is the two characters brace-space; re-parsing it runs the object loop off
the end of the token vector (GetNext past the end, undefined behaviour in
the C++, a dedicated error outcome here) instead of reproducing the
tree. -/
theorem claim_C4_counterexample :
    Parse ['{', '}'] = .ok (.jObj []) ∧
    ToStringC (.jObj []) = ['{', ' '] ∧
    Parse ['{', ' '] = .error .tokenOutOfBounds :=
  ⟨rfl, rfl, rfl⟩

/-- C4 (amended): for every tree obtained by parsing valid input whose
objects and arrays are all nonempty, parsing the compact serialization
succeeds and yields exactly the tree with every number leaf rounded to six
decimal places; in particular the result has identical tags, identical
keys in order in every object, identical array lengths and order, equal
string, boolean and null leaves, and number leaves within half of the last
printed decimal place of the original.  The restriction to nonempty
containers is forced: an empty container's serialization omits its closing
bracket and does not parse back. -/
theorem claim_C4_round_trip :
    ∀ (src : List Char) (t : JElem), Parse src = .ok t → noEmpty t = true →
      Parse (ToStringC t) = .ok (mapRound6 t) ∧ treeSim t (mapRound6 t) :=
  fun _ t hp hne => ⟨roundTrip_of_parse hp hne, treeSim_mapRound6 t⟩

theorem claim_C4_round_trip_witness :
    Parse ['{', '"', 'a', '"', ':', '1', '}'] =
      .ok (.jObj [(['a'], .jNum (mkRat 1 1))]) ∧
    noEmpty (.jObj [(['a'], .jNum (mkRat 1 1))]) = true ∧
    (Parse (ToStringC (.jObj [(['a'], .jNum (mkRat 1 1))])) =
        .ok (mapRound6 (.jObj [(['a'], .jNum (mkRat 1 1))])) ∧
      treeSim (.jObj [(['a'], .jNum (mkRat 1 1))])
        (mapRound6 (.jObj [(['a'], .jNum (mkRat 1 1))]))) :=
  ⟨rfl, rfl, claim_C4_round_trip ['{', '"', 'a', '"', ':', '1', '}'] _ rfl rfl⟩

end JsonCPP
